import Mathlib

/-!
Verification development for the mini-language compiler pipeline
(lexer, recursive-descent parser, scope/slot semantic analyzer, bytecode
code generator with jump backpatching, and stack-based bytecode VM).

The definitions below are a shallow embedding of the TypeScript sources:
  * `types.ts`   — token and instruction data model,
  * `ast.ts`     — AST node variants,
  * the Lexer    — `tokenize`,
  * the Parser   — recursive descent with explicit precedence levels,
  * the SemanticAnalyzer — scope stack, slot counter, resolution map,
  * the CodeGenerator    — append-only instruction buffer with operand patching,
  * the VM       — dispatch loop with a 100000-instruction cap.

Embedding conventions:
  * JavaScript numbers are modeled as `Int` (the language only ever computes
    with integers); `Math.floor(a / b)` is `Int.fdiv` and the JS remainder
    `a % b` is `Int.tmod` (both coincide with JS on all integer operands with
    nonzero divisor; division by zero produces non-integers in JS and is
    modeled by the Lean functions' zero conventions).
  * The resolution map `Map<ASTNode, number>` is keyed by object identity in
    the source; following the repository design notes, each map-keyed node
    variant (`VarDecl`, `Assign`, `Identifier`) carries a small unique integer
    id assigned at construction time by the parser, and the map is an
    association list keyed by that id (later `set`s are consed in front, so
    lookup returns the most recent binding, exactly like `Map.set`/`Map.get`).
  * Arrays used as stacks (`scopes`, the VM operand stack) are modeled as
    lists whose head is the top of the stack.
  * The lexer's and parser's `while` loops run on an explicit fuel that is
    chosen large enough to never be exhausted on any input that the loops
    terminate on (every iteration consumes at least one character / token).
  * `stack.pop()` on an empty stack yields `undefined` in JS and never throws;
    the arithmetic opcodes then push `NaN`.  These underflow continuations are
    modeled with the placeholder value `0` (for `JMP_IF_FALSE` the popped
    `undefined` compares unequal to `0`, which is modeled exactly; for `PRINT`
    the popped `undefined` prints as "undefined", also modeled exactly).
    Compiled programs never reach any of these cases.
  * Reading `this.bytecode[this.ip]` with a negative instruction pointer
    yields `undefined` in JS and the subsequent `inst.op` access throws; this
    is the `thrown` outcome below.
-/

set_option maxHeartbeats 1000000
set_option maxRecDepth 100000

namespace MiniC

/-- Token kinds, from `types.ts` (`TokenType`). -/
inductive TokenType
  | KW_INT | KW_IF | KW_ELSE | KW_WHILE | KW_PRINT
  | ID | NUM
  | PLUS | MINUS | STAR | SLASH | PERCENT
  | ASSIGN | EQ | NE | LT | GT | LE | GE
  | LPAREN | RPAREN | LBRACE | RBRACE | SEMI
  | EOF | ERROR
deriving DecidableEq, Repr

/-- Tokens, from `types.ts` (`Token`). -/
structure Token where
  type : TokenType
  lexeme : String
  line : Nat
  col : Nat
deriving DecidableEq, Repr

/-- Bytecode opcodes, from `types.ts` (`OpCode`). -/
inductive OpCode
  | PUSH_INT | LOAD | STORE
  | ADD | SUB | MUL | DIV | MOD
  | CMP_EQ | CMP_NE | CMP_LT | CMP_GT | CMP_LE | CMP_GE
  | JMP | JMP_IF_FALSE | PRINT | HALT
deriving DecidableEq, Repr

/-- Bytecode instructions, from `types.ts` (`Instruction`): an opcode, an
optional integer operand, and an optional diagnostic comment. -/
structure Instruction where
  op : OpCode
  operand : Option Int
  comment : Option String
deriving DecidableEq, Repr

/-- AST nodes, from `ast.ts`.  The three variants used as keys of the
resolution map (`VarDeclNode`, `AssignNode`, `IdentifierNode`) carry a unique
integer id `nid` assigned at construction time by the parser. -/
inductive ASTNode
  | program (statements : List ASTNode)
  | varDecl (nid : Nat) (name : Token)
  | assign (nid : Nat) (name : Token) (expr : ASTNode)
  | printStmt (expr : ASTNode)
  | block (statements : List ASTNode)
  | ifStmt (cond : ASTNode) (thenBranch : ASTNode) (elseBranch : Option ASTNode)
  | whileStmt (cond : ASTNode) (body : ASTNode)
  | binaryExpr (left : ASTNode) (op : Token) (right : ASTNode)
  | literal (val : Int)
  | identifier (nid : Nat) (name : Token)
deriving Repr

/-! ### Lexer (from the `Lexer` class) -/

/-- `Lexer.isDigit`. -/
def isDigit (c : Char) : Bool := decide ('0' ≤ c) && decide (c ≤ '9')

/-- `Lexer.isAlpha`. -/
def isAlpha (c : Char) : Bool :=
  (decide ('a' ≤ c) && decide (c ≤ 'z')) || (decide ('A' ≤ c) && decide (c ≤ 'Z')) || decide (c = '_')

/-- `Lexer.isAlphaNumeric`. -/
def isAlphaNumeric (c : Char) : Bool := isAlpha c || isDigit c

/-- `Lexer.keywordOrId`: exact-string match against the keyword set. -/
def keywordOrId (s : String) : TokenType :=
  if s = "int" then .KW_INT
  else if s = "if" then .KW_IF
  else if s = "else" then .KW_ELSE
  else if s = "while" then .KW_WHILE
  else if s = "print" then .KW_PRINT
  else .ID

/-- The line-comment loop inside `Lexer.skipWhitespace`: consume characters up
to (but not including) the next newline, advancing the column per character. -/
def dropComment : List Char → Nat → Nat → List Char × Nat × Nat
  | [], line, col => ([], line, col)
  | c :: rest, line, col =>
    if c = '\n' then (c :: rest, line, col)
    else dropComment rest line (col + 1)

/-- `Lexer.skipWhitespace`: skip spaces, tabs, carriage returns, newlines and
`//` line comments, maintaining the 1-based line/column position.  The fuel is
always called with more than the number of remaining characters, so the fuel-0
branch is unreachable. -/
def skipWs : Nat → List Char → Nat → Nat → List Char × Nat × Nat
  | 0, input, line, col => (input, line, col)
  | fuel + 1, input, line, col =>
    match input with
    | [] => ([], line, col)
    | c :: rest =>
      if c = ' ' || c = '\r' || c = '\t' then skipWs fuel rest line (col + 1)
      else if c = '\n' then skipWs fuel rest (line + 1) 1
      else if c = '/' && rest.head? = some '/' then
        match dropComment (c :: rest) line col with
        | (rest', line', col') => skipWs fuel rest' line' col'
      else (c :: rest, line, col)

/-- Maximal munch of further digits (the `while (isDigit(peek))` loop). -/
def takeDigits : List Char → List Char × List Char
  | [] => ([], [])
  | c :: rest =>
    if isDigit c then
      match takeDigits rest with
      | (taken, left) => (c :: taken, left)
    else ([], c :: rest)

/-- Maximal munch of further identifier characters. -/
def takeAlphaNum : List Char → List Char × List Char
  | [] => ([], [])
  | c :: rest =>
    if isAlphaNumeric c then
      match takeAlphaNum rest with
      | (taken, left) => (c :: taken, left)
    else ([], c :: rest)

/-- The body of `Lexer.tokenize`'s `while` loop.  Each iteration skips
whitespace and then consumes exactly one token (at least one character), so
fuel `input.length + 1` can never be exhausted; the fuel-0 error branch is
unreachable. -/
def lexLoop : Nat → List Char → Nat → Nat → List Token → Except String (List Token)
  | 0, _, _, _, _ => .error "Lexer Error: out of fuel"
  | fuel + 1, input, line, col, acc =>
    match skipWs (input.length + 1) input line col with
    | (input, line, col) =>
      match input with
      | [] => .ok (acc ++ [⟨.EOF, "", line, col⟩])
      | c :: rest =>
        if isDigit c then
          match takeDigits rest with
          | (ds, rest') =>
            let lexeme := String.mk (c :: ds)
            lexLoop fuel rest' line (col + lexeme.length) (acc ++ [⟨.NUM, lexeme, line, col⟩])
        else if isAlpha c then
          match takeAlphaNum rest with
          | (as, rest') =>
            let lexeme := String.mk (c :: as)
            lexLoop fuel rest' line (col + lexeme.length)
              (acc ++ [⟨keywordOrId lexeme, lexeme, line, col⟩])
        else if c = '+' then lexLoop fuel rest line (col + 1) (acc ++ [⟨.PLUS, "+", line, col⟩])
        else if c = '-' then lexLoop fuel rest line (col + 1) (acc ++ [⟨.MINUS, "-", line, col⟩])
        else if c = '*' then lexLoop fuel rest line (col + 1) (acc ++ [⟨.STAR, "*", line, col⟩])
        else if c = '/' then lexLoop fuel rest line (col + 1) (acc ++ [⟨.SLASH, "/", line, col⟩])
        else if c = '%' then lexLoop fuel rest line (col + 1) (acc ++ [⟨.PERCENT, "%", line, col⟩])
        else if c = '(' then lexLoop fuel rest line (col + 1) (acc ++ [⟨.LPAREN, "(", line, col⟩])
        else if c = ')' then lexLoop fuel rest line (col + 1) (acc ++ [⟨.RPAREN, ")", line, col⟩])
        else if c = '{' then lexLoop fuel rest line (col + 1) (acc ++ [⟨.LBRACE, "\x7b", line, col⟩])
        else if c = '}' then lexLoop fuel rest line (col + 1) (acc ++ [⟨.RBRACE, "\x7d", line, col⟩])
        else if c = ';' then lexLoop fuel rest line (col + 1) (acc ++ [⟨.SEMI, ";", line, col⟩])
        else if c = '=' then
          if rest.head? = some '=' then
            lexLoop fuel rest.tail line (col + 2) (acc ++ [⟨.EQ, "==", line, col⟩])
          else lexLoop fuel rest line (col + 1) (acc ++ [⟨.ASSIGN, "=", line, col⟩])
        else if c = '!' then
          if rest.head? = some '=' then
            lexLoop fuel rest.tail line (col + 2) (acc ++ [⟨.NE, "!=", line, col⟩])
          else .error "Lexer Error: Unexpected character"
        else if c = '<' then
          if rest.head? = some '=' then
            lexLoop fuel rest.tail line (col + 2) (acc ++ [⟨.LE, "<=", line, col⟩])
          else lexLoop fuel rest line (col + 1) (acc ++ [⟨.LT, "<", line, col⟩])
        else if c = '>' then
          if rest.head? = some '=' then
            lexLoop fuel rest.tail line (col + 2) (acc ++ [⟨.GE, ">=", line, col⟩])
          else lexLoop fuel rest line (col + 1) (acc ++ [⟨.GT, ">", line, col⟩])
        else .error "Lexer Error: Unexpected character"

/-- `Lexer.tokenize`: source text to token sequence ending in one EOF token. -/
def tokenize (source : String) : Except String (List Token) :=
  lexLoop (source.length + 1) source.toList 1 1 []

/-! ### Parser (from the `Parser` class) -/

/-- Parser state: the remaining token stream (the source keeps an index
`current` into an immutable array; consuming the list head is equivalent) and
the counter from which fresh node ids are drawn at node construction. -/
structure PState where
  toks : List Token
  nextId : Nat
deriving Repr

/-- `Parser.peek`: the current token.  The token list always ends in the EOF
token and the parser never consumes it, so the default is unreachable. -/
def peekTok (st : PState) : Token := st.toks.headD ⟨.EOF, "", 0, 0⟩

/-- `Parser.isAtEnd`. -/
def isAtEndP (st : PState) : Bool := (peekTok st).type = .EOF

/-- `Parser.check`. -/
def checkP (st : PState) (ty : TokenType) : Bool :=
  if isAtEndP st then false else (peekTok st).type = ty

/-- `Parser.advance`: consume the current token and return it. -/
def advanceP (st : PState) : Token × PState :=
  if isAtEndP st then (peekTok st, st)
  else (peekTok st, { st with toks := st.toks.tail })

/-- `Parser.consume`: demand a token of the given kind or fail. -/
def consumeP (st : PState) (ty : TokenType) (msg : String) : Except String (Token × PState) :=
  if checkP st ty then .ok (advanceP st)
  else
    .error ("Parse Error: " ++ msg ++ " at " ++ (peekTok st).lexeme ++ " (line "
      ++ toString (peekTok st).line ++ ", col " ++ toString (peekTok st).col ++ ")")

/-- `Number(lexeme)` on an all-digit lexeme. -/
def digitsToNat (s : String) : Nat := s.toList.foldl (fun n c => n * 10 + (c.toNat - 48)) 0

/-- Draw a fresh node id (models object identity at node construction). -/
def freshId (st : PState) : Nat × PState := (st.nextId, { st with nextId := st.nextId + 1 })

/-- The production being parsed: one constructor per recursive method of the
`Parser` class (the operator-folding `while` loops and the statement-list
loops carry their accumulator).  The fourteen mutually recursive methods are
packed into the single fuel-recursive function `parseRun` below, one match arm
per method; the named wrappers after it restore the source's names. -/
inductive PMode
  | statementM
  | varDeclM
  | printStmtM
  | ifStmtM
  | whileStmtM
  | blockLoopM (stmts : List ASTNode)
  | assignStmtM
  | expressionM
  | comparisonM
  | comparisonLoopM (expr : ASTNode)
  | termM
  | termLoopM (expr : ASTNode)
  | factorM
  | factorLoopM (expr : ASTNode)
  | primaryM
  | programLoopM (stmts : List ASTNode)

/-- The recursive methods of the `Parser` class.  Every recursive call peels
one unit of fuel; the parser's recursion depth plus loop-iteration count is
linear in the token count, so the fuel chosen in `parse` below is never
exhausted and the fuel-0 branch is unreachable. -/
def parseRun : Nat → PMode → PState → Except String (ASTNode × PState)
  | 0, _, _ => .error "Parse Error: out of fuel"
  | fuel + 1, mode, st =>
    match mode with
    | .statementM =>
      if checkP st .KW_INT then parseRun fuel .varDeclM (advanceP st).2
      else if checkP st .KW_PRINT then parseRun fuel .printStmtM (advanceP st).2
      else if checkP st .KW_IF then parseRun fuel .ifStmtM (advanceP st).2
      else if checkP st .KW_WHILE then parseRun fuel .whileStmtM (advanceP st).2
      else if checkP st .LBRACE then parseRun fuel (.blockLoopM []) (advanceP st).2
      else parseRun fuel .assignStmtM st
    | .varDeclM => do
      let (name, st) ← consumeP st .ID "Expect variable name after int"
      let (_, st) ← consumeP st .SEMI "Expect semicolon after variable declaration"
      let (nid, st) := freshId st
      .ok (.varDecl nid name, st)
    | .printStmtM => do
      let (_, st) ← consumeP st .LPAREN "Expect open paren after print"
      let (expr, st) ← parseRun fuel .expressionM st
      let (_, st) ← consumeP st .RPAREN "Expect close paren after print expression"
      let (_, st) ← consumeP st .SEMI "Expect semicolon after print statement"
      .ok (.printStmt expr, st)
    | .ifStmtM => do
      let (_, st) ← consumeP st .LPAREN "Expect open paren after if"
      let (cond, st) ← parseRun fuel .expressionM st
      let (_, st) ← consumeP st .RPAREN "Expect close paren after if condition"
      let (thenBranch, st) ← parseRun fuel .statementM st
      if checkP st .KW_ELSE then do
        let (elseBranch, st) ← parseRun fuel .statementM (advanceP st).2
        .ok (.ifStmt cond thenBranch (some elseBranch), st)
      else
        .ok (.ifStmt cond thenBranch none, st)
    | .whileStmtM => do
      let (_, st) ← consumeP st .LPAREN "Expect open paren after while"
      let (cond, st) ← parseRun fuel .expressionM st
      let (_, st) ← consumeP st .RPAREN "Expect close paren after while condition"
      let (body, st) ← parseRun fuel .statementM st
      .ok (.whileStmt cond body, st)
    | .blockLoopM stmts =>
      if !checkP st .RBRACE && !isAtEndP st then do
        let (s, st) ← parseRun fuel .statementM st
        parseRun fuel (.blockLoopM (stmts ++ [s])) st
      else do
        let (_, st) ← consumeP st .RBRACE "Expect close brace after block"
        .ok (.block stmts, st)
    | .assignStmtM => do
      let (name, st) ← consumeP st .ID "Expect identifier in assignment or statement"
      let (_, st) ← consumeP st .ASSIGN "Expect equals sign after identifier"
      let (expr, st) ← parseRun fuel .expressionM st
      let (_, st) ← consumeP st .SEMI "Expect semicolon after assignment"
      let (nid, st) := freshId st
      .ok (.assign nid name expr, st)
    | .expressionM => parseRun fuel .comparisonM st
    | .comparisonM => do
      let (expr, st) ← parseRun fuel .termM st
      parseRun fuel (.comparisonLoopM expr) st
    | .comparisonLoopM expr =>
      if checkP st .EQ || checkP st .NE || checkP st .LT
          || checkP st .GT || checkP st .LE || checkP st .GE then do
        let (op, st) := advanceP st
        let (right, st) ← parseRun fuel .termM st
        parseRun fuel (.comparisonLoopM (.binaryExpr expr op right)) st
      else .ok (expr, st)
    | .termM => do
      let (expr, st) ← parseRun fuel .factorM st
      parseRun fuel (.termLoopM expr) st
    | .termLoopM expr =>
      if checkP st .PLUS || checkP st .MINUS then do
        let (op, st) := advanceP st
        let (right, st) ← parseRun fuel .factorM st
        parseRun fuel (.termLoopM (.binaryExpr expr op right)) st
      else .ok (expr, st)
    | .factorM => do
      let (expr, st) ← parseRun fuel .primaryM st
      parseRun fuel (.factorLoopM expr) st
    | .factorLoopM expr =>
      if checkP st .STAR || checkP st .SLASH || checkP st .PERCENT then do
        let (op, st) := advanceP st
        let (right, st) ← parseRun fuel .primaryM st
        parseRun fuel (.factorLoopM (.binaryExpr expr op right)) st
      else .ok (expr, st)
    | .primaryM =>
      if checkP st .NUM then
        let (tok, st) := advanceP st
        .ok (.literal (Int.ofNat (digitsToNat tok.lexeme)), st)
      else if checkP st .ID then
        let (tok, st) := advanceP st
        let (nid, st) := freshId st
        .ok (.identifier nid tok, st)
      else if checkP st .LPAREN then do
        let (expr, st) ← parseRun fuel .expressionM (advanceP st).2
        let (_, st) ← consumeP st .RPAREN "Expect close paren after expression"
        .ok (expr, st)
      else .error ("Parse Error: Expect expression at " ++ (peekTok st).lexeme)
    | .programLoopM stmts =>
      if !isAtEndP st then do
        let (s, st) ← parseRun fuel .statementM st
        parseRun fuel (.programLoopM (stmts ++ [s])) st
      else .ok (.program stmts, st)

/-- `Parser.statement`. -/
def parseStatement (fuel : Nat) (st : PState) : Except String (ASTNode × PState) :=
  parseRun fuel .statementM st

/-- `Parser.expression`. -/
def parseExpression (fuel : Nat) (st : PState) : Except String (ASTNode × PState) :=
  parseRun fuel .expressionM st

/-- `Parser.comparison`: a term followed by the left-associative
operator-folding loop. -/
def parseComparison (fuel : Nat) (st : PState) : Except String (ASTNode × PState) :=
  parseRun fuel .comparisonM st

/-- `Parser.term`. -/
def parseTerm (fuel : Nat) (st : PState) : Except String (ASTNode × PState) :=
  parseRun fuel .termM st

/-- `Parser.factor`. -/
def parseFactor (fuel : Nat) (st : PState) : Except String (ASTNode × PState) :=
  parseRun fuel .factorM st

/-- `Parser.primary`. -/
def parsePrimary (fuel : Nat) (st : PState) : Except String (ASTNode × PState) :=
  parseRun fuel .primaryM st

/-- `Parser.parse`: token sequence to `ProgramNode`.  Every iteration of every
loop in the parser consumes at least one token, and the call depth between two
consumptions is bounded by the number of productions, so the fuel below is
never exhausted. -/
def parse (toks : List Token) : Except String ASTNode := do
  let (ast, _) ← parseRun (20 * toks.length + 20) (.programLoopM []) ⟨toks, 0⟩
  .ok ast


/-! ### Semantic analyzer (from the `SemanticAnalyzer` class) -/

/-- One lexical scope: a mapping from variable name to assigned slot,
modeled as an association list (new bindings are consed in front). -/
abbrev Scope := List (String × Nat)

/-- The analyzer's mutable state: the scope stack (head = innermost scope,
matching `scopes[scopes.length - 1]` in the source), the process-wide slot
counter, and the resolution map `varToSlot` keyed by node id. -/
structure SemState where
  scopes : List Scope
  slotCounter : Nat
  varToSlot : List (Nat × Nat)
deriving Repr

/-- Semantic binding failures thrown by the analyzer. -/
inductive SemError
  | redeclaration (name : String) (line : Nat)
  | undeclaredVariable (name : String) (line : Nat)
deriving DecidableEq, Repr

/-- `SemanticAnalyzer.currentScope`: the top of the scope stack.  The stack is
never empty (one global scope at construction, balanced push/pop), so the
default is unreachable. -/
def currentScope (st : SemState) : Scope := st.scopes.headD []

/-- Insert `name ↦ slot` into the top scope (`scope.set(...)` in
`visitVarDecl`; the name was already checked absent from that scope). -/
def declareVar (st : SemState) (name : String) (slot : Nat) : SemState :=
  { st with scopes :=
      match st.scopes with
      | s :: rest => ((name, slot) :: s) :: rest
      | [] => [[(name, slot)]] }

/-- `SemanticAnalyzer.resolve`: search the scope stack from innermost to
outermost and return the first binding found. -/
def resolveVar : List Scope → String → Option Nat
  | [], _ => none
  | s :: rest, name =>
    match s.lookup name with
    | some slot => some slot
    | none => resolveVar rest name

mutual

/-- The `visit…` methods of `SemanticAnalyzer`, as one exhaustive match over
the node variants.  Failures short-circuit exactly like thrown exceptions. -/
def analyzeNode (st : SemState) : ASTNode → Except SemError SemState
  | .program stmts => analyzeStmts st stmts
  | .varDecl nid name =>
    if ((currentScope st).lookup name.lexeme).isSome then
      .error (.redeclaration name.lexeme name.line)
    else
      let slot := st.slotCounter
      .ok { (declareVar st name.lexeme slot) with
              slotCounter := slot + 1,
              varToSlot := (nid, slot) :: st.varToSlot }
  | .assign nid name expr => do
    let st ← analyzeNode st expr
    match resolveVar st.scopes name.lexeme with
    | none => .error (.undeclaredVariable name.lexeme name.line)
    | some slot => .ok { st with varToSlot := (nid, slot) :: st.varToSlot }
  | .printStmt expr => analyzeNode st expr
  | .block stmts => do
    let st' ← analyzeStmts { st with scopes := [] :: st.scopes } stmts
    .ok { st' with scopes := st'.scopes.tail }
  | .ifStmt cond thenBranch elseBranch => do
    let st ← analyzeNode st cond
    let st ← analyzeNode st thenBranch
    match elseBranch with
    | some e => analyzeNode st e
    | none => .ok st
  | .whileStmt cond body => do
    let st ← analyzeNode st cond
    analyzeNode st body
  | .binaryExpr left _ right => do
    let st ← analyzeNode st left
    analyzeNode st right
  | .literal _ => .ok st
  | .identifier nid name =>
    match resolveVar st.scopes name.lexeme with
    | none => .error (.undeclaredVariable name.lexeme name.line)
    | some slot => .ok { st with varToSlot := (nid, slot) :: st.varToSlot }

/-- `node.statements.forEach(s => s.accept(this))`. -/
def analyzeStmts (st : SemState) : List ASTNode → Except SemError SemState
  | [] => .ok st
  | s :: rest => do
    let st' ← analyzeNode st s
    analyzeStmts st' rest

end

/-- The analyzer's initial state: one empty global scope, slot counter 0,
empty resolution map. -/
def semInit : SemState := ⟨[[]], 0, []⟩

/-- Run the semantic pass over a program and return the resolution map. -/
def analyze (ast : ASTNode) : Except SemError (List (Nat × Nat)) :=
  (analyzeNode semInit ast).map fun st => st.varToSlot

/-! ### Code generator (from the `CodeGenerator` class) -/

/-- `CodeGenerator.emit`: append one instruction to the buffer. -/
def emit (ins : List Instruction) (op : OpCode) (operand : Option Int)
    (comment : Option String) : List Instruction :=
  ins ++ [⟨op, operand, comment⟩]

/-- `CodeGenerator.patch`: overwrite the operand of the instruction at the
given index (always a valid index in every call site). -/
def patch (ins : List Instruction) (idx : Nat) (value : Nat) : List Instruction :=
  match ins.get? idx with
  | some inst => ins.set idx { inst with operand := some (Int.ofNat value) }
  | none => ins

/-- `varToSlot.get(node)` keyed by node id. -/
def lookupSlot (m : List (Nat × Nat)) (nid : Nat) : Option Nat := m.lookup nid

/-- The opcode for a binary operator token, from the `switch` in
`visitBinaryExpr` (which has no default case: an unexpected operator token
emits nothing). -/
def opcodeOf : TokenType → Option OpCode
  | .PLUS => some .ADD
  | .MINUS => some .SUB
  | .STAR => some .MUL
  | .SLASH => some .DIV
  | .PERCENT => some .MOD
  | .EQ => some .CMP_EQ
  | .NE => some .CMP_NE
  | .LT => some .CMP_LT
  | .GT => some .CMP_GT
  | .LE => some .CMP_LE
  | .GE => some .CMP_GE
  | _ => none

mutual

/-- The `visit…` methods of `CodeGenerator`: walk the node, appending to (and
patching within) the instruction buffer `ins`. -/
def genNode (m : List (Nat × Nat)) (ins : List Instruction) : ASTNode → List Instruction
  | .program stmts => genStmts m ins stmts
  | .varDecl nid name =>
    let slot := lookupSlot m nid
    let ins := emit ins .PUSH_INT (some 0) (some ("init " ++ name.lexeme))
    emit ins .STORE (slot.map Int.ofNat) none
  | .assign nid name expr =>
    let ins := genNode m ins expr
    emit ins .STORE ((lookupSlot m nid).map Int.ofNat) (some ("assign " ++ name.lexeme))
  | .printStmt expr =>
    let ins := genNode m ins expr
    emit ins .PRINT none none
  | .block stmts => genStmts m ins stmts
  | .ifStmt cond thenBranch elseBranch =>
    let ins := genNode m ins cond
    let jumpIfFalseIdx := ins.length
    let ins := emit ins .JMP_IF_FALSE (some 0) none
    let ins := genNode m ins thenBranch
    match elseBranch with
    | some e =>
      let jumpToEndIdx := ins.length
      let ins := emit ins .JMP (some 0) none
      let ins := patch ins jumpIfFalseIdx ins.length
      let ins := genNode m ins e
      patch ins jumpToEndIdx ins.length
    | none => patch ins jumpIfFalseIdx ins.length
  | .whileStmt cond body =>
    let loopStartIdx := ins.length
    let ins := genNode m ins cond
    let jumpIfFalseIdx := ins.length
    let ins := emit ins .JMP_IF_FALSE (some 0) none
    let ins := genNode m ins body
    let ins := emit ins .JMP (some (Int.ofNat loopStartIdx)) none
    patch ins jumpIfFalseIdx ins.length
  | .binaryExpr left op right =>
    let ins := genNode m ins left
    let ins := genNode m ins right
    match opcodeOf op.type with
    | some oc => emit ins oc none none
    | none => ins
  | .literal v => emit ins .PUSH_INT (some v) none
  | .identifier nid name =>
    emit ins .LOAD ((lookupSlot m nid).map Int.ofNat) (some ("load " ++ name.lexeme))

/-- `node.statements.forEach(s => s.accept(this))`. -/
def genStmts (m : List (Nat × Nat)) (ins : List Instruction) : List ASTNode → List Instruction
  | [] => ins
  | s :: rest => genStmts m (genNode m ins s) rest

end

/-- `CodeGenerator.getBytecode`: append the trailing `HALT` and return the
buffer. -/
def getBytecode (ins : List Instruction) : List Instruction := emit ins .HALT none none

/-- Full code generation for a program: visit the AST (starting from an empty
buffer) and append the trailing `HALT`. -/
def generate (m : List (Nat × Nat)) (ast : ASTNode) : List Instruction :=
  getBytecode (genNode m [] ast)


/-! ### Virtual machine (from the `VM` class) -/

/-- The iteration cap of the dispatch loop (`MAX_ITERATIONS`). -/
def MAX_ITERATIONS : Nat := 100000

/-- The sentinel output line appended when the cap is reached. -/
def sentinel : String := "Runtime Error: Exceeded execution limit (possible infinite loop)"

/-- The VM's per-run mutable state: operand stack (head = top), slot array
`vars` (named `variables` in the source, a reserved word in Lean; a total map
with default 0, matching `this.variables[i] ?? 0` on unset entries),
instruction pointer, output sequence, and the dispatch counter of the run
loop. -/
structure VMState where
  stack : List Int
  vars : Int → Int
  ip : Int
  output : List String
  iterations : Nat

/-- Store into the slot array (`this.variables[i] = v`). -/
def updateVar (f : Int → Int) (k v : Int) : Int → Int :=
  fun x => if x = k then v else f x

/-- `String(value)` for an integer value. -/
def jsString (i : Int) : String := toString i

/-- `Math.floor(a / b)`: floor division (coincides with JS for every integer
`a` and nonzero `b`; JS produces the non-integers `±Infinity`/`NaN` when
`b = 0`, outside the integer domain modeled here). -/
def jsDiv (a b : Int) : Int := Int.fdiv a b

/-- The JS remainder `a % b`: truncated remainder, sign of the dividend
(coincides with JS for every integer `a` and nonzero `b`). -/
def jsMod (a b : Int) : Int := Int.tmod a b

/-- `this.bytecode[this.ip]`: `none` when the pointer is negative (the loop
guard already excludes pointers at or past the end). -/
def fetch (code : List Instruction) (ip : Int) : Option Instruction :=
  if ip < 0 then none else code.get? ip.toNat

/-- The target `this.ip = inst.operand!` of a taken jump.  A missing operand
makes the JS pointer `undefined`, which fails the loop guard on the next
iteration; that is modeled by a pointer just past the end. -/
def jumpTarget (code : List Instruction) (operand : Option Int) : Int :=
  match operand with
  | some t => t
  | none => (code.length : Int)

/-- Result of dispatching one instruction. -/
inductive StepResult
  | next (st : VMState)
  | halted (st : VMState)
  | thrown (msg : String) (st : VMState)

/-- The common pop-pop-push shape of the arithmetic and comparison cases
(`b` is popped first, then `a`).  On underflow JS pops `undefined` and pushes
`NaN` without throwing; that continuation is modeled by pushing the
placeholder `0` (unreachable on compiled programs). -/
def binOp (st : VMState) (f : Int → Int → Int) : VMState :=
  match st.stack with
  | b :: a :: s => { st with stack := f a b :: s, ip := st.ip + 1 }
  | s => { st with stack := 0 :: s.drop 2, ip := st.ip + 1 }

/-- One iteration of the `switch (inst.op)` dispatch in `VM.run`.  Fetching an
instruction at a negative pointer yields `undefined` in JS and the `inst.op`
access throws; that is the `thrown` outcome.  `PUSH_INT`/`LOAD`/`STORE` with a
missing operand are modeled with placeholder index/value `0` (unreachable on
compiled programs, whose operands are always present). -/
def vmStep (code : List Instruction) (st : VMState) : StepResult :=
  match fetch code st.ip with
  | none => .thrown "TypeError: cannot read properties of undefined" st
  | some inst =>
    match inst.op with
    | .PUSH_INT => .next { st with stack := inst.operand.getD 0 :: st.stack, ip := st.ip + 1 }
    | .LOAD => .next { st with stack := st.vars (inst.operand.getD 0) :: st.stack, ip := st.ip + 1 }
    | .STORE =>
      match st.stack with
      | v :: s =>
        .next { st with stack := s, vars := updateVar st.vars (inst.operand.getD 0) v, ip := st.ip + 1 }
      | [] =>
        .next { st with vars := updateVar st.vars (inst.operand.getD 0) 0, ip := st.ip + 1 }
    | .ADD => .next (binOp st fun a b => a + b)
    | .SUB => .next (binOp st fun a b => a - b)
    | .MUL => .next (binOp st fun a b => a * b)
    | .DIV => .next (binOp st jsDiv)
    | .MOD => .next (binOp st jsMod)
    | .CMP_EQ => .next (binOp st fun a b => if a = b then 1 else 0)
    | .CMP_NE => .next (binOp st fun a b => if a = b then 0 else 1)
    | .CMP_LT => .next (binOp st fun a b => if a < b then 1 else 0)
    | .CMP_GT => .next (binOp st fun a b => if b < a then 1 else 0)
    | .CMP_LE => .next (binOp st fun a b => if a ≤ b then 1 else 0)
    | .CMP_GE => .next (binOp st fun a b => if b ≤ a then 1 else 0)
    | .JMP => .next { st with ip := jumpTarget code inst.operand }
    | .JMP_IF_FALSE =>
      match st.stack with
      | v :: s =>
        if v = 0 then .next { st with stack := s, ip := jumpTarget code inst.operand }
        else .next { st with stack := s, ip := st.ip + 1 }
      | [] => .next { st with ip := st.ip + 1 }
    | .PRINT =>
      match st.stack with
      | v :: s => .next { st with stack := s, output := st.output ++ [jsString v], ip := st.ip + 1 }
      | [] => .next { st with output := st.output ++ ["undefined"], ip := st.ip + 1 }
    | .HALT => .halted st

/-- How the `while` loop of `VM.run` ended. -/
inductive RunOutcome
  | finished (st : VMState)
  | halted (st : VMState)
  | thrown (msg : String) (st : VMState)

/-- The `while (ip < length && iterations < MAX_ITERATIONS)` loop of `VM.run`.
The fuel is `MAX_ITERATIONS - iterations`, so fuel 0 is exactly the cap
condition failing; `iterations` is incremented at the top of each iteration,
before dispatch. -/
def vmLoop (code : List Instruction) : Nat → VMState → RunOutcome
  | 0, st => .finished st
  | fuel + 1, st =>
    if st.ip < (code.length : Int) then
      match vmStep code { st with iterations := st.iterations + 1 } with
      | .next st' => vmLoop code fuel st'
      | .halted st' => .halted st'
      | .thrown msg st' => .thrown msg st'
    else .finished st

/-- A `VM` instance: the bytecode passed to the constructor plus the instance
fields.  `run` resets `output`, `ip` and `stack` at entry but leaves
`variables` as the previous run left it. -/
structure VMInstance where
  bytecode : List Instruction
  stack : List Int
  vars : Int → Int
  ip : Int
  output : List String

/-- `new VM(bytecode)`: all instance fields start empty/zero. -/
def newVM (bytecode : List Instruction) : VMInstance :=
  { bytecode := bytecode, stack := [], vars := fun _ => 0, ip := 0, output := [] }

/-- `VM.run`: reset `output`, `ip` and `stack` (but not `variables`), run the
dispatch loop, and append the sentinel line when the loop exhausted the
iteration cap without reaching `HALT` (a `HALT` returns from inside the loop
and skips the cap check).  Returns the output (or the thrown error) together
with the instance as the run left it. -/
def VMInstance.run (vm : VMInstance) : Except String (List String) × VMInstance :=
  let st0 : VMState :=
    { stack := [], vars := vm.vars, ip := 0, output := [], iterations := 0 }
  match vmLoop vm.bytecode MAX_ITERATIONS st0 with
  | .halted st =>
    (.ok st.output,
     { vm with stack := st.stack, vars := st.vars, ip := st.ip, output := st.output })
  | .finished st =>
    let out := if MAX_ITERATIONS ≤ st.iterations then st.output ++ [sentinel] else st.output
    (.ok out,
     { vm with stack := st.stack, vars := st.vars, ip := st.ip, output := out })
  | .thrown msg st =>
    (.error msg,
     { vm with stack := st.stack, vars := st.vars, ip := st.ip, output := st.output })

/-- Running a compiled program on a fresh VM instance (`new VM(bc); vm.run()`). -/
def vmRun (code : List Instruction) : Except String (List String) :=
  (VMInstance.run (newVM code)).1

/-! ### The five-stage pipeline -/

/-- The human-readable message of a semantic error (`e.message`). -/
def semErrMessage : SemError → String
  | .redeclaration n l =>
    "Semantic Error: Redeclaration of " ++ n ++ " at line " ++ toString l
  | .undeclaredVariable n l =>
    "Semantic Error: Use of undeclared variable " ++ n ++ " at line " ++ toString l

/-- Lexer → Parser → Semantic Analyzer → Code Generator: compile source text
to an instruction sequence.  The code-generation stage is the
`CodeGenerator` component driven over the analyzed AST (visit the program,
then `getBytecode` appends the trailing `HALT`), as §4.4 of the specification
describes. -/
def compileSource (source : String) : Except String (List Instruction) := do
  let toks ← tokenize source
  let ast ← parse toks
  match analyze ast with
  | .error e => .error (semErrMessage e)
  | .ok m => .ok (generate m ast)

/-- The full pipeline: compile and execute on a fresh VM. -/
def runPipeline (source : String) : Except String (List String) := do
  let code ← compileSource source
  vmRun code


/-! ### General lemmas about the VM dispatch loop -/

/-- The initial per-run VM state (`run` resets `output`, `ip`, `stack` and the
iteration counter; a fresh instance's slot array is all zeros). -/
def freshState : VMState := { stack := [], vars := fun _ => 0, ip := 0, output := [], iterations := 0 }

/-- Dispatching any fetched non-`HALT` instruction continues the loop with
`next`, and dispatch never changes the iteration counter. -/
theorem vmStep_next_of_not_halt (code : List Instruction) (st : VMState) (inst : Instruction)
    (hf : fetch code st.ip = some inst) (hop : inst.op ≠ .HALT) :
    ∃ st', vmStep code st = .next st' ∧ st'.iterations = st.iterations := by
  unfold vmStep
  rw [hf]
  dsimp only
  rcases st with ⟨stack, vars, ip, output, iterations⟩
  rcases stack with _ | ⟨b, _ | ⟨a, s⟩⟩ <;>
    cases hop' : inst.op <;>
      first
        | exact absurd hop' hop
        | exact ⟨_, rfl, rfl⟩
        | (dsimp only [binOp]; exact ⟨_, rfl, rfl⟩)
        | (dsimp only [binOp]; split <;> exact ⟨_, rfl, rfl⟩)

/-- Extending the fuel of a loop run that ended with the guard still true
performs exactly one more dispatch. -/
theorem vmLoop_succ_of_finished (code : List Instruction) :
    ∀ (k : Nat) (s st : VMState), vmLoop code k s = .finished st →
      st.ip < (code.length : Int) →
      vmLoop code (k + 1) s =
        (match vmStep code { st with iterations := st.iterations + 1 } with
          | .next st' => .finished st'
          | .halted st' => .halted st'
          | .thrown msg st' => .thrown msg st') := by
  intro k
  induction k with
  | zero =>
    intro s st h hip
    have h' : RunOutcome.finished s = RunOutcome.finished st := h
    cases h'
    show vmLoop code 1 s = _
    unfold vmLoop
    rw [if_pos hip]
    split <;> rfl
  | succ k ih =>
    intro s st h hip
    unfold vmLoop at h ⊢
    by_cases hs : s.ip < (code.length : Int)
    · rw [if_pos hs] at h ⊢
      cases hstep : vmStep code { s with iterations := s.iterations + 1 } with
      | next s' =>
        simp only [hstep] at h ⊢
        exact ih s' st h hip
      | halted s' => simp only [hstep] at h; cases h
      | thrown m s' => simp only [hstep] at h; cases h
    · rw [if_neg hs] at h ⊢
      have h' : RunOutcome.finished s = RunOutcome.finished st := h
      cases h'
      exact absurd hip hs

/-- Under the hypothesis that the first `MAX_ITERATIONS` loop states all have
a valid instruction pointer at a non-`HALT` instruction, the loop performs
exactly `k` dispatches for every fuel `k ≤ MAX_ITERATIONS`. -/
theorem vmLoop_full_iterations (code : List Instruction)
    (H : ∀ k < MAX_ITERATIONS, ∃ st, vmLoop code k freshState = .finished st ∧
      st.ip < (code.length : Int) ∧ ∃ inst, fetch code st.ip = some inst ∧ inst.op ≠ .HALT) :
    ∀ k, k ≤ MAX_ITERATIONS →
      ∃ st, vmLoop code k freshState = .finished st ∧ st.iterations = k := by
  intro k
  induction k with
  | zero => intro _; exact ⟨freshState, rfl, rfl⟩
  | succ k ih =>
    intro hk
    obtain ⟨st, hloop, hiter⟩ := ih (Nat.le_of_succ_le hk)
    obtain ⟨st', hloop', hip, inst, hf, hop⟩ := H k (Nat.lt_of_succ_le hk)
    rw [hloop] at hloop'
    cases hloop'
    obtain ⟨st'', hstep, hit''⟩ :=
      vmStep_next_of_not_halt code { st with iterations := st.iterations + 1 } inst hf hop
    refine ⟨st'', ?_, ?_⟩
    · rw [vmLoop_succ_of_finished code k freshState st hloop hip, hstep]
    · rw [hit'', hiter]


/-! ### Claim C1: end-to-end while-loop scenario -/

/-- C1: compiling `int i; i=0; while (i<5) { print(i); i=i+1; }` through the
full pipeline (tokenize, then parse, then analyze, then code-generate, then
run) succeeds with no error, and run returns exactly the output sequence
`["0","1","2","3","4"]`, in that order. -/
theorem c1_full_pipeline_while_loop :
    runPipeline "int i; i=0; while (i<5) { print(i); i=i+1; }" =
      .ok ["0", "1", "2", "3", "4"] := by
  rfl

/-! ### Claim C3: the bounded-execution sentinel -/

/-- C3 counterexample: the one-instruction sequence `[PUSH_INT 1]` contains no
`HALT` at all (so execution never reaches a `HALT` instruction), yet `run`
terminates after exactly one dispatched instruction — not 100000 — and
returns an output without any sentinel line, refuting the claim as stated. -/
theorem c3_counterexample :
    (∀ inst ∈ ([⟨.PUSH_INT, some 1, none⟩] : List Instruction), inst.op ≠ .HALT) ∧
    vmLoop [⟨.PUSH_INT, some 1, none⟩] MAX_ITERATIONS freshState =
      .finished { stack := [1], vars := fun _ => 0, ip := 1, output := [], iterations := 1 } ∧
    vmRun [⟨.PUSH_INT, some 1, none⟩] = .ok [] ∧
    ∀ out : List String, ([] : List String) ≠ out ++ [sentinel] := by
  refine ⟨?_, rfl, rfl, ?_⟩
  · intro inst h
    rw [List.mem_singleton] at h
    subst h
    decide
  · intro out h
    exact absurd (congrArg List.length h) (by simp)

/-- C3 (amended): for every instruction sequence on which the dispatch loop's
first 100000 states all sit at a valid, non-`HALT` instruction (so execution
neither reaches a `HALT` nor leaves the sequence bounds), run terminates after
exactly 100000 dispatched instructions and appends exactly one sentinel error
line to the accumulated output, returning normally. -/
theorem c3_bounded_execution_sentinel (code : List Instruction)
    (H : ∀ k < MAX_ITERATIONS, ∃ st, vmLoop code k freshState = .finished st ∧
      st.ip < (code.length : Int) ∧ ∃ inst, fetch code st.ip = some inst ∧ inst.op ≠ .HALT) :
    ∃ st, vmLoop code MAX_ITERATIONS freshState = .finished st ∧
      st.iterations = MAX_ITERATIONS ∧ vmRun code = .ok (st.output ++ [sentinel]) := by
  obtain ⟨st, hloop, hiter⟩ := vmLoop_full_iterations code H MAX_ITERATIONS le_rfl
  refine ⟨st, hloop, hiter, ?_⟩
  unfold vmRun VMInstance.run newVM
  dsimp only
  have hloop' : vmLoop code MAX_ITERATIONS
      { stack := [], vars := fun _ => 0, ip := 0, output := [], iterations := 0 } =
      .finished st := hloop
  rw [hloop']
  dsimp only
  rw [hiter, if_pos le_rfl]

/-- The compilation of `while (1) { }`. -/
def whileTrueCode : List Instruction :=
  [⟨.PUSH_INT, some 1, none⟩, ⟨.JMP_IF_FALSE, some 3, none⟩,
   ⟨.JMP, some 0, none⟩, ⟨.HALT, none, none⟩]

/-- On `whileTrueCode` the dispatch loop cycles with period 3 through the
instruction pointers 0, 1, 2, never reaching the trailing `HALT`: from any of
the three cycle states, any number of dispatches leaves the loop in a state
with a valid non-`HALT` instruction pointer. -/
theorem whileTrue_cycle (k : Nat) : ∀ n : Nat,
    (∃ st, vmLoop whileTrueCode k ⟨[], fun _ => 0, 0, [], n⟩ = .finished st ∧
      st.ip < (whileTrueCode.length : Int) ∧
      ∃ inst, fetch whileTrueCode st.ip = some inst ∧ inst.op ≠ .HALT) ∧
    (∃ st, vmLoop whileTrueCode k ⟨[1], fun _ => 0, 1, [], n⟩ = .finished st ∧
      st.ip < (whileTrueCode.length : Int) ∧
      ∃ inst, fetch whileTrueCode st.ip = some inst ∧ inst.op ≠ .HALT) ∧
    (∃ st, vmLoop whileTrueCode k ⟨[], fun _ => 0, 2, [], n⟩ = .finished st ∧
      st.ip < (whileTrueCode.length : Int) ∧
      ∃ inst, fetch whileTrueCode st.ip = some inst ∧ inst.op ≠ .HALT) := by
  induction k with
  | zero =>
    intro n
    refine ⟨⟨_, rfl, ?_, ⟨.PUSH_INT, some 1, none⟩, rfl, by decide⟩,
      ⟨_, rfl, ?_, ⟨.JMP_IF_FALSE, some 3, none⟩, rfl, by decide⟩,
      ⟨_, rfl, ?_, ⟨.JMP, some 0, none⟩, rfl, by decide⟩⟩ <;> norm_num [whileTrueCode]
  | succ k ih =>
    intro n
    obtain ⟨h0, h1, h2⟩ := ih (n + 1)
    exact ⟨h1, h2, h0⟩

/-- C3 witness: the compiled form of `while (1) { }` satisfies the amended
claim's hypothesis, so its run performs exactly 100000 dispatches and appends
exactly one sentinel line. -/
theorem c3_witness :
    compileSource "while (1) { }" = .ok whileTrueCode ∧
    ∃ st, vmLoop whileTrueCode MAX_ITERATIONS freshState = .finished st ∧
      st.iterations = MAX_ITERATIONS ∧ vmRun whileTrueCode = .ok (st.output ++ [sentinel]) := by
  refine ⟨by rfl, c3_bounded_execution_sentinel whileTrueCode ?_⟩
  intro k _
  exact (whileTrue_cycle k 0).1


/-! ### Claim C9: per-run state freshness -/

/-- C9 counterexample: on the compiled form of
`if (0) int x; print(x); x = 7;` a first `run` prints "0" and stores 7 into
slot 0; a second `run` on the same VM instance starts from the first run's
slot array (`run` resets `output`, `ip` and `stack` but not `variables`) and
prints "7" — two successive calls to `run` on the same instance do not yield
identical output sequences. -/
theorem c9_counterexample :
    ∃ code, compileSource "if (0) int x; print(x); x = 7;" = .ok code ∧
      (VMInstance.run (newVM code)).1 = .ok ["0"] ∧
      (VMInstance.run (VMInstance.run (newVM code)).2).1 = .ok ["7"] ∧
      (["0"] : List String) ≠ ["7"] := by
  exact ⟨_, rfl, rfl, rfl, by decide⟩

/-- C9 (amended): the operand stack, instruction pointer, and output sequence
are reset at the start of every `run`, so the result of a run depends only on
the bytecode and the instance's slot array; in particular executions on fresh
VM instances (as the pipeline performs) are reproducible.  The slot array
itself belongs to the VM instance and is **not** reset by `run`. -/
theorem c9_run_resets_stack_ip_output :
    ∀ (code : List Instruction) (vars : Int → Int) (s1 s2 : List Int) (i1 i2 : Int)
      (o1 o2 : List String),
      (VMInstance.run ⟨code, s1, vars, i1, o1⟩).1 = (VMInstance.run ⟨code, s2, vars, i2, o2⟩).1 := by
  intro code vars s1 s2 i1 i2 o1 o2
  unfold VMInstance.run
  dsimp only

/-! ### Claim C4: DIV is floor division, MOD is dividend-sign remainder -/

/-- Negating both operands leaves floor division unchanged (case analysis on
the sign representation). -/
theorem fdiv_neg_neg (a b : Int) : Int.fdiv (-a) (-b) = Int.fdiv a b := by
  rcases a with (_ | m) | m <;> rcases b with (_ | n) | n <;>
    first
      | rfl
      | (show (0 : Int) = Int.ofNat ((m + 1) / 0)
         rw [Nat.div_zero]
         decide)
      | (show Int.ofNat ((m + 1) / 0) = (0 : Int)
         rw [Nat.div_zero]
         decide)

/-- Negating the dividend negates the truncated remainder. -/
theorem tmod_neg_left (a b : Int) : Int.tmod (-a) b = -Int.tmod a b := by
  rw [Int.tmod_def, Int.tmod_def, Int.neg_tdiv]
  ring

/-- `Int.fdiv` is the floor of the rational quotient. -/
theorem fdiv_is_floor (a b : Int) (hb : b ≠ 0) :
    ((Int.fdiv a b : Int) : ℚ) ≤ (a : ℚ) / (b : ℚ) ∧
      (a : ℚ) / (b : ℚ) < ((Int.fdiv a b : Int) : ℚ) + 1 := by
  have main : ∀ (x y : Int), 0 < y →
      ((Int.fdiv x y : Int) : ℚ) ≤ (x : ℚ) / (y : ℚ) ∧
        (x : ℚ) / (y : ℚ) < ((Int.fdiv x y : Int) : ℚ) + 1 := by
    intro x y hy
    have key := Int.fmod_add_fdiv x y
    have h0 : (0 : Int) ≤ x.fmod y := Int.fmod_nonneg' x hy
    have h1 : x.fmod y < y := Int.fmod_lt_of_pos x hy
    have keyQ : ((x.fmod y : Int) : ℚ) + (y : ℚ) * ((Int.fdiv x y : Int) : ℚ) = (x : ℚ) := by
      exact_mod_cast congrArg (fun z : Int => (z : ℚ)) key
    have h0Q : (0 : ℚ) ≤ ((x.fmod y : Int) : ℚ) := by exact_mod_cast h0
    have h1Q : ((x.fmod y : Int) : ℚ) < (y : ℚ) := by exact_mod_cast h1
    have hyQ : (0 : ℚ) < (y : ℚ) := by exact_mod_cast hy
    constructor
    · rw [le_div_iff₀ hyQ]
      nlinarith [keyQ, h0Q]
    · rw [div_lt_iff₀ hyQ]
      nlinarith [keyQ, h1Q]
  rcases lt_or_gt_of_ne hb with hneg | hpos
  · have h := main (-a) (-b) (by omega)
    rw [fdiv_neg_neg] at h
    have hcast : ((-a : Int) : ℚ) / ((-b : Int) : ℚ) = (a : ℚ) / (b : ℚ) := by
      push_cast
      rw [neg_div_neg_eq]
    rw [hcast] at h
    exact h
  · exact main a b hpos

/-- The truncated remainder is smaller than the divisor in magnitude. -/
theorem tmod_natAbs_lt (a b : Int) (hb : b ≠ 0) : (Int.tmod a b).natAbs < b.natAbs := by
  have key : ∀ (x y : Int), 0 < y → 0 ≤ x → 0 ≤ Int.tmod x y ∧ Int.tmod x y < y :=
    fun x y hy hx => ⟨Int.tmod_nonneg y hx, Int.tmod_lt_of_pos x hy⟩
  rcases le_or_lt 0 a with ha | ha <;> rcases lt_or_gt_of_ne hb with hbn | hbp
  · have h := key a (-b) (by omega) ha
    rw [Int.tmod_neg] at h
    omega
  · have h := key a b hbp ha
    omega
  · have h := key (-a) (-b) (by omega) (by omega)
    rw [Int.tmod_neg, tmod_neg_left] at h
    omega
  · have h := key (-a) b hbp (by omega)
    rw [tmod_neg_left] at h
    omega


/-- The truncated remainder of a nonpositive dividend is nonpositive. -/
theorem tmod_nonpos (a b : Int) (ha : a ≤ 0) : Int.tmod a b ≤ 0 := by
  have h := Int.tmod_nonneg b (show (0 : Int) ≤ -a by omega)
  rw [tmod_neg_left] at h
  omega

/-- C4: with `b` on top of the stack and `a` beneath it and `b ≠ 0`, `DIV`
pops both and pushes `Math.floor(a / b)` — the floor of the rational quotient,
rounding toward negative infinity — while `MOD` pops both and pushes the JS
remainder `a % b`, a true remainder of truncating division that carries the
sign of the dividend `a`; and the two conventions combined do not satisfy
`a == (a/b)*b + a%b`. -/
theorem c4_div_floor_mod_dividend_sign :
    (∀ (code : List Instruction) (st : VMState) (inst : Instruction) (a b : Int) (s : List Int),
      fetch code st.ip = some inst → inst.op = .DIV → st.stack = b :: a :: s → b ≠ 0 →
      vmStep code st = .next { st with stack := Int.fdiv a b :: s, ip := st.ip + 1 } ∧
        ((Int.fdiv a b : Int) : ℚ) ≤ (a : ℚ) / (b : ℚ) ∧
        (a : ℚ) / (b : ℚ) < ((Int.fdiv a b : Int) : ℚ) + 1) ∧
    (∀ (code : List Instruction) (st : VMState) (inst : Instruction) (a b : Int) (s : List Int),
      fetch code st.ip = some inst → inst.op = .MOD → st.stack = b :: a :: s → b ≠ 0 →
      vmStep code st = .next { st with stack := Int.tmod a b :: s, ip := st.ip + 1 } ∧
        (0 ≤ a → 0 ≤ Int.tmod a b) ∧ (a ≤ 0 → Int.tmod a b ≤ 0) ∧
        (Int.tmod a b).natAbs < b.natAbs ∧
        Int.tmod a b + b * Int.tdiv a b = a) ∧
    (∃ a b : Int, b ≠ 0 ∧ Int.fdiv a b * b + Int.tmod a b ≠ a) := by
  refine ⟨?_, ?_, ⟨-7, 2, by decide, by decide⟩⟩
  · intro code st inst a b s hf hop hst hb
    obtain ⟨stack, vars, ip, output, iterations⟩ := st
    dsimp only at hst
    subst hst
    unfold vmStep
    rw [hf]
    dsimp only
    rw [hop]
    dsimp only [binOp, jsDiv]
    exact ⟨rfl, (fdiv_is_floor a b hb).1, (fdiv_is_floor a b hb).2⟩
  · intro code st inst a b s hf hop hst hb
    obtain ⟨stack, vars, ip, output, iterations⟩ := st
    dsimp only at hst
    subst hst
    unfold vmStep
    rw [hf]
    dsimp only
    rw [hop]
    dsimp only [binOp, jsMod]
    exact ⟨rfl, fun ha => Int.tmod_nonneg b ha, fun ha => tmod_nonpos a b ha,
      tmod_natAbs_lt a b hb, Int.tmod_add_tdiv a b⟩

/-- C4 witness: the two parts of the claim instantiated at `a = -7`, `b = 2`
on a concrete one-instruction program. -/
theorem c4_witness :
    (vmStep [⟨.DIV, none, none⟩] ⟨[2, -7], fun _ => 0, 0, [], 0⟩ =
        .next ⟨[Int.fdiv (-7) 2], fun _ => 0, 1, [], 0⟩ ∧
      ((Int.fdiv (-7) 2 : Int) : ℚ) ≤ ((-7 : Int) : ℚ) / ((2 : Int) : ℚ) ∧
      ((-7 : Int) : ℚ) / ((2 : Int) : ℚ) < ((Int.fdiv (-7) 2 : Int) : ℚ) + 1) ∧
    (vmStep [⟨.MOD, none, none⟩] ⟨[2, -7], fun _ => 0, 0, [], 0⟩ =
        .next ⟨[Int.tmod (-7) 2], fun _ => 0, 1, [], 0⟩ ∧
      (0 ≤ (-7 : Int) → 0 ≤ Int.tmod (-7) 2) ∧ ((-7 : Int) ≤ 0 → Int.tmod (-7) 2 ≤ 0) ∧
      (Int.tmod (-7) 2).natAbs < (2 : Int).natAbs ∧
      Int.tmod (-7) 2 + 2 * Int.tdiv (-7) 2 = -7) :=
  ⟨c4_div_floor_mod_dividend_sign.1 [⟨.DIV, none, none⟩] ⟨[2, -7], fun _ => 0, 0, [], 0⟩
      ⟨.DIV, none, none⟩ (-7) 2 [] rfl rfl rfl (by decide),
   c4_div_floor_mod_dividend_sign.2.1 [⟨.MOD, none, none⟩] ⟨[2, -7], fun _ => 0, 0, [], 0⟩
      ⟨.MOD, none, none⟩ (-7) 2 [] rfl rfl rfl (by decide)⟩

/-! ### Claim C8: chained comparisons parse left-associated -/

/-- C8: for all operand tokens `a`, `b`, `c` (number literals or
identifiers), the parser accepts the chained comparison `a<b<c` (here as the
statement `print(a<b<c);`) and produces the left-associated tree `(a<b)<c`:
a `BinaryExpr` whose left child is the `BinaryExpr` for `a<b`; and the code
generated for such a tree evaluates `a<b` to its 0-or-1 result and then
compares that result against `c`. -/
theorem c8_chained_comparison_left_assoc :
    (∀ (sa sb sc : String) (la ca lb cb lc cc l1 c1 l2 c2 : Nat) (s1 s2 : String),
      parse [⟨.KW_PRINT, "print", 1, 1⟩, ⟨.LPAREN, "(", 1, 6⟩,
             ⟨.NUM, sa, la, ca⟩, ⟨.LT, s1, l1, c1⟩, ⟨.NUM, sb, lb, cb⟩,
             ⟨.LT, s2, l2, c2⟩, ⟨.NUM, sc, lc, cc⟩,
             ⟨.RPAREN, ")", 1, 20⟩, ⟨.SEMI, ";", 1, 21⟩, ⟨.EOF, "", 1, 22⟩] =
        .ok (.program [.printStmt (.binaryExpr
              (.binaryExpr (.literal (Int.ofNat (digitsToNat sa))) ⟨.LT, s1, l1, c1⟩
                (.literal (Int.ofNat (digitsToNat sb))))
              ⟨.LT, s2, l2, c2⟩
              (.literal (Int.ofNat (digitsToNat sc))))])) ∧
    (∀ (sa sb sc : String) (la ca lb cb lc cc l1 c1 l2 c2 : Nat) (s1 s2 : String),
      parse [⟨.KW_PRINT, "print", 1, 1⟩, ⟨.LPAREN, "(", 1, 6⟩,
             ⟨.ID, sa, la, ca⟩, ⟨.LT, s1, l1, c1⟩, ⟨.ID, sb, lb, cb⟩,
             ⟨.LT, s2, l2, c2⟩, ⟨.ID, sc, lc, cc⟩,
             ⟨.RPAREN, ")", 1, 20⟩, ⟨.SEMI, ";", 1, 21⟩, ⟨.EOF, "", 1, 22⟩] =
        .ok (.program [.printStmt (.binaryExpr
              (.binaryExpr (.identifier 0 ⟨.ID, sa, la, ca⟩) ⟨.LT, s1, l1, c1⟩
                (.identifier 1 ⟨.ID, sb, lb, cb⟩))
              ⟨.LT, s2, l2, c2⟩
              (.identifier 2 ⟨.ID, sc, lc, cc⟩))])) ∧
    (∀ (va vb vc : Int) (m : List (Nat × Nat)) (t1 t2 : Token), t1.type = .LT → t2.type = .LT →
      genNode m [] (.binaryExpr (.binaryExpr (.literal va) t1 (.literal vb)) t2 (.literal vc)) =
        [⟨.PUSH_INT, some va, none⟩, ⟨.PUSH_INT, some vb, none⟩, ⟨.CMP_LT, none, none⟩,
         ⟨.PUSH_INT, some vc, none⟩, ⟨.CMP_LT, none, none⟩]) := by
  refine ⟨?_, ?_, ?_⟩
  · intro sa sb sc la ca lb cb lc cc l1 c1 l2 c2 s1 s2
    rfl
  · intro sa sb sc la ca lb cb lc cc l1 c1 l2 c2 s1 s2
    rfl
  · intro va vb vc m t1 t2 h1 h2
    simp [genNode, emit, h1, h2, opcodeOf]


/-- C8 witness: the three parts instantiated at concrete tokens `1<2<3` and
`x<y<z`. -/
theorem c8_witness :
    parse [⟨.KW_PRINT, "print", 1, 1⟩, ⟨.LPAREN, "(", 1, 6⟩,
           ⟨.NUM, "1", 1, 7⟩, ⟨.LT, "<", 1, 8⟩, ⟨.NUM, "2", 1, 9⟩,
           ⟨.LT, "<", 1, 10⟩, ⟨.NUM, "3", 1, 11⟩,
           ⟨.RPAREN, ")", 1, 20⟩, ⟨.SEMI, ";", 1, 21⟩, ⟨.EOF, "", 1, 22⟩] =
      .ok (.program [.printStmt (.binaryExpr
            (.binaryExpr (.literal (Int.ofNat (digitsToNat "1"))) ⟨.LT, "<", 1, 8⟩
              (.literal (Int.ofNat (digitsToNat "2"))))
            ⟨.LT, "<", 1, 10⟩
            (.literal (Int.ofNat (digitsToNat "3"))))]) ∧
    genNode [] [] (.binaryExpr
        (.binaryExpr (.literal 1) ⟨.LT, "<", 1, 8⟩ (.literal 2)) ⟨.LT, "<", 1, 10⟩ (.literal 3)) =
      [⟨.PUSH_INT, some 1, none⟩, ⟨.PUSH_INT, some 2, none⟩, ⟨.CMP_LT, none, none⟩,
       ⟨.PUSH_INT, some 3, none⟩, ⟨.CMP_LT, none, none⟩] :=
  ⟨c8_chained_comparison_left_assoc.1 "1" "2" "3" 1 7 1 9 1 11 1 8 1 10 "<" "<",
   c8_chained_comparison_left_assoc.2.2 1 2 3 [] ⟨.LT, "<", 1, 8⟩ ⟨.LT, "<", 1, 10⟩ rfl rfl⟩

/-! ### Claim C5: redeclaration and undeclared-variable errors -/

/-- A name resolves to nothing exactly when no scope on the stack binds it. -/
theorem resolveVar_eq_none (scopes : List Scope) (name : String) :
    resolveVar scopes name = none ↔ ∀ scope ∈ scopes, scope.lookup name = none := by
  induction scopes with
  | nil => simp [resolveVar]
  | cons s rest ih =>
    cases hl : List.lookup name s with
    | some v =>
      constructor
      · intro h
        unfold resolveVar at h
        rw [hl] at h
        cases h
      · intro h
        have hs := h s (List.mem_cons_self s rest)
        rw [hs] at hl
        cases hl
    | none =>
      constructor
      · intro h
        unfold resolveVar at h
        rw [hl] at h
        intro scope hmem
        rcases List.mem_cons.mp hmem with rfl | hmem'
        · exact hl
        · exact ih.mp h scope hmem'
      · intro h
        unfold resolveVar
        rw [hl]
        exact ih.mpr fun scope hmem => h scope (List.mem_cons_of_mem s hmem)

/-- C5: a declaration fails with `RedeclarationError` exactly when the name is
already bound in the current (top) lexical scope — and with no other error —
so a redeclaration in a nested scope is legal shadowing; a use (read or
assignment target) fails with `UndeclaredVariableError` exactly when the name
is bound in no scope, current or enclosing; and on
`int a; int a; a=10; print(b);` the pass fails at the second `int a;` with
`RedeclarationError`, never reaching the undeclared `b`. -/
theorem c5_first_semantic_error :
    (∀ (st : SemState) (nid : Nat) (tok : Token),
      analyzeNode st (.varDecl nid tok) = .error (.redeclaration tok.lexeme tok.line) ↔
        ((currentScope st).lookup tok.lexeme).isSome) ∧
    (∀ (st : SemState) (nid : Nat) (tok : Token) (e : SemError),
      analyzeNode st (.varDecl nid tok) = .error e → e = .redeclaration tok.lexeme tok.line) ∧
    (∀ (st : SemState) (nid : Nat) (tok : Token),
      analyzeNode st (.identifier nid tok) = .error (.undeclaredVariable tok.lexeme tok.line) ↔
        ∀ scope ∈ st.scopes, scope.lookup tok.lexeme = none) ∧
    (∀ (st : SemState) (nid : Nat) (tok : Token) (v : Int),
      analyzeNode st (.assign nid tok (.literal v)) = .error (.undeclaredVariable tok.lexeme tok.line) ↔
        ∀ scope ∈ st.scopes, scope.lookup tok.lexeme = none) ∧
    (∀ (nm : String) (l1 c1 l2 c2 : Nat), ∃ m, analyze (.program
        [.varDecl 0 ⟨.ID, nm, l1, c1⟩, .block [.varDecl 1 ⟨.ID, nm, l2, c2⟩]]) = .ok m) ∧
    (∃ toks ast, tokenize "int a; int a; a=10; print(b);" = .ok toks ∧
      parse toks = .ok ast ∧ analyze ast = .error (.redeclaration "a" 1)) := by
  refine ⟨?_, ?_, ?_, ?_, ?_, ⟨_, _, rfl, rfl, rfl⟩⟩
  · intro st nid tok
    constructor
    · intro h
      by_contra hn
      simp only [analyzeNode, Bool.not_eq_true] at h
      rw [if_neg (by simp_all)] at h
      cases h
    · intro h
      simp only [analyzeNode]
      rw [if_pos h]
  · intro st nid tok e h
    simp only [analyzeNode] at h
    by_cases hs : ((currentScope st).lookup tok.lexeme).isSome
    · rw [if_pos hs] at h
      cases h
      rfl
    · rw [if_neg hs] at h
      cases h
  · intro st nid tok
    rw [← resolveVar_eq_none]
    constructor
    · intro h
      cases hr : resolveVar st.scopes tok.lexeme with
      | none => rfl
      | some slot =>
        simp only [analyzeNode, hr] at h
        cases h
    · intro h
      simp only [analyzeNode, h]
  · intro st nid tok v
    rw [← resolveVar_eq_none]
    constructor
    · intro h
      cases hr : resolveVar st.scopes tok.lexeme with
      | none => rfl
      | some slot =>
        simp only [analyzeNode, bind, Except.bind, hr] at h
        cases h
    · intro h
      simp only [analyzeNode, bind, Except.bind, h]
  · intro nm l1 c1 l2 c2
    exact ⟨[(1, 1), (0, 0)], rfl⟩

/-- C5 witness: the two iffs applied at concrete states — a duplicate of `a`
in the same scope raises `RedeclarationError`, and a use of unbound `b` in
the empty scope stack raises `UndeclaredVariableError`. -/
theorem c5_witness :
    analyzeNode ⟨[[("a", 0)]], 1, []⟩ (.varDecl 1 ⟨.ID, "a", 3, 1⟩) =
      .error (.redeclaration "a" 3) ∧
    analyzeNode ⟨[[]], 0, []⟩ (.identifier 0 ⟨.ID, "b", 1, 1⟩) =
      .error (.undeclaredVariable "b" 1) :=
  ⟨(c5_first_semantic_error.1 ⟨[[("a", 0)]], 1, []⟩ 1 ⟨.ID, "a", 3, 1⟩).mpr (by decide),
   (c5_first_semantic_error.2.2.1 ⟨[[]], 0, []⟩ 0 ⟨.ID, "b", 1, 1⟩).mpr (by decide)⟩


/-! ### Claim C6: shadowing gets fresh, distinct slots -/

/-- Looking a name up in a scope whose first binding is that name. -/
theorem lookup_cons_self (nm : String) (v : Nat) (l : List (String × Nat)) :
    List.lookup nm ((nm, v) :: l) = some v := by
  simp [List.lookup]

mutual

/-- A successful visit never decreases the slot counter. -/
theorem analyzeNode_counter_mono : ∀ (n : ASTNode) (st st' : SemState),
    analyzeNode st n = .ok st' → st.slotCounter ≤ st'.slotCounter
  | .program stmts, st, st', h => analyzeStmts_counter_mono stmts st st' h
  | .varDecl nid name, st, st', h => by
    simp only [analyzeNode] at h
    by_cases hs : ((currentScope st).lookup name.lexeme).isSome
    · rw [if_pos hs] at h
      cases h
    · rw [if_neg hs] at h
      cases h
      exact Nat.le_succ _
  | .assign nid name expr, st, st', h => by
    simp only [analyzeNode, bind, Except.bind] at h
    cases he : analyzeNode st expr with
    | error e => rw [he] at h; cases h
    | ok st1 =>
      rw [he] at h
      dsimp only at h
      cases hr : resolveVar st1.scopes name.lexeme with
      | none => rw [hr] at h; cases h
      | some slot =>
        rw [hr] at h
        cases h
        exact analyzeNode_counter_mono expr st st1 he
  | .printStmt expr, st, st', h => analyzeNode_counter_mono expr st st' h
  | .block stmts, st, st', h => by
    simp only [analyzeNode, bind, Except.bind] at h
    cases he : analyzeStmts { st with scopes := [] :: st.scopes } stmts with
    | error e => rw [he] at h; cases h
    | ok st1 =>
      rw [he] at h
      dsimp only at h
      cases h
      exact analyzeStmts_counter_mono stmts { st with scopes := [] :: st.scopes } st1 he
  | .ifStmt cond thenB elseB, st, st', h => by
    simp only [analyzeNode, bind, Except.bind] at h
    cases hc : analyzeNode st cond with
    | error e => rw [hc] at h; cases h
    | ok st1 =>
      rw [hc] at h
      dsimp only at h
      cases ht : analyzeNode st1 thenB with
      | error e => rw [ht] at h; cases h
      | ok st2 =>
        rw [ht] at h
        dsimp only at h
        have m1 := analyzeNode_counter_mono cond st st1 hc
        have m2 := analyzeNode_counter_mono thenB st1 st2 ht
        cases elseB with
        | none =>
          simp only at h
          cases h
          omega
        | some e =>
          simp only at h
          have m3 := analyzeNode_counter_mono e st2 st' h
          omega
  | .whileStmt cond body, st, st', h => by
    simp only [analyzeNode, bind, Except.bind] at h
    cases hc : analyzeNode st cond with
    | error e => rw [hc] at h; cases h
    | ok st1 =>
      rw [hc] at h
      dsimp only at h
      have m1 := analyzeNode_counter_mono cond st st1 hc
      have m2 := analyzeNode_counter_mono body st1 st' h
      omega
  | .binaryExpr left op right, st, st', h => by
    simp only [analyzeNode, bind, Except.bind] at h
    cases hl : analyzeNode st left with
    | error e => rw [hl] at h; cases h
    | ok st1 =>
      rw [hl] at h
      dsimp only at h
      have m1 := analyzeNode_counter_mono left st st1 hl
      have m2 := analyzeNode_counter_mono right st1 st' h
      omega
  | .literal v, st, st', h => by
    simp only [analyzeNode] at h
    cases h
    exact le_rfl
  | .identifier nid name, st, st', h => by
    simp only [analyzeNode] at h
    cases hr : resolveVar st.scopes name.lexeme with
    | none => rw [hr] at h; cases h
    | some slot =>
      rw [hr] at h
      cases h
      exact le_rfl

/-- A successful statement-list visit never decreases the slot counter. -/
theorem analyzeStmts_counter_mono : ∀ (l : List ASTNode) (st st' : SemState),
    analyzeStmts st l = .ok st' → st.slotCounter ≤ st'.slotCounter
  | [], st, st', h => by
    simp only [analyzeStmts] at h
    cases h
    exact le_rfl
  | s :: rest, st, st', h => by
    simp only [analyzeStmts, bind, Except.bind] at h
    cases hs : analyzeNode st s with
    | error e => rw [hs] at h; cases h
    | ok st1 =>
      rw [hs] at h
      dsimp only at h
      have m1 := analyzeNode_counter_mono s st st1 hs
      have m2 := analyzeStmts_counter_mono rest st1 st' h
      omega

end

/-- A successful declaration consumes exactly the current counter value as the
new slot and bumps the counter. -/
theorem analyzeNode_varDecl_fresh_slot (st : SemState) (nid : Nat) (tok : Token) (st' : SemState)
    (h : analyzeNode st (.varDecl nid tok) = .ok st') :
    st'.varToSlot = (nid, st.slotCounter) :: st.varToSlot ∧
      st'.slotCounter = st.slotCounter + 1 := by
  simp only [analyzeNode] at h
  by_cases hs : ((currentScope st).lookup tok.lexeme).isSome
  · rw [if_pos hs] at h
    cases h
  · rw [if_neg hs] at h
    cases h
    exact ⟨rfl, rfl⟩

/-- C6: in the schema `int n; { int n; n = v1; } n = v2;`, quantified over
the variable name and all token positions, the two declarations of the name
receive the numerically distinct slots 0 and 1 (each declaration consumes the
monotonically increasing counter's current value, per the two general
conjuncts); the use inside the block after the inner declaration resolves to
the inner slot 1 and the use after the block exits resolves to the outer
slot 0. -/
theorem c6_shadowing_distinct_slots :
    (∀ (nm : String) (l1 c1 l2 c2 l3 c3 l4 c4 : Nat) (v1 v2 : Int),
      ∃ m, analyze (.program
          [.varDecl 0 ⟨.ID, nm, l1, c1⟩,
           .block [.varDecl 1 ⟨.ID, nm, l2, c2⟩,
                   .assign 2 ⟨.ID, nm, l3, c3⟩ (.literal v1)],
           .assign 3 ⟨.ID, nm, l4, c4⟩ (.literal v2)]) = .ok m ∧
        lookupSlot m 0 = some 0 ∧ lookupSlot m 1 = some 1 ∧
        lookupSlot m 2 = some 1 ∧ lookupSlot m 3 = some 0 ∧ (1 : Nat) ≠ 0) ∧
    (∀ (st : SemState) (n : ASTNode) (st' : SemState),
      analyzeNode st n = .ok st' → st.slotCounter ≤ st'.slotCounter) ∧
    (∀ (st : SemState) (nid : Nat) (tok : Token) (st' : SemState),
      analyzeNode st (.varDecl nid tok) = .ok st' →
        st'.varToSlot = (nid, st.slotCounter) :: st.varToSlot ∧
          st'.slotCounter = st.slotCounter + 1) := by
  refine ⟨?_, fun st n st' h => analyzeNode_counter_mono n st st' h,
    fun st nid tok st' h => analyzeNode_varDecl_fresh_slot st nid tok st' h⟩
  intro nm l1 c1 l2 c2 l3 c3 l4 c4 v1 v2
  refine ⟨[(3, 0), (2, 1), (1, 1), (0, 0)], ?_, rfl, rfl, rfl, rfl, by decide⟩
  simp [analyze, analyzeNode, analyzeStmts, semInit, currentScope, declareVar,
    resolveVar, bind, Except.bind, Except.map, List.lookup]


/-! ### Claim C10: un-braced declaration bodies land in the enclosing scope -/

/-- C10: only `Block` nodes push and pop scopes — visiting an `if` or `while`
whose direct, un-braced body is a declaration has exactly the same effect on
the analyzer state as visiting the declaration itself in the enclosing scope
(first two conjuncts); consequently, in the schemas
`if (1) int n; n = v;` and `while (0) int n; n = v;` (quantified over the
name, positions and assigned value) the declaration is still in scope after
the `if`/`while` and the later use resolves to that declaration's slot
(last two conjuncts). -/
theorem c10_unbraced_body_decl_enclosing_scope :
    (∀ (st : SemState) (w : Int) (nid : Nat) (tok : Token),
      analyzeNode st (.ifStmt (.literal w) (.varDecl nid tok) none) =
        analyzeNode st (.varDecl nid tok)) ∧
    (∀ (st : SemState) (w : Int) (nid : Nat) (tok : Token),
      analyzeNode st (.whileStmt (.literal w) (.varDecl nid tok)) =
        analyzeNode st (.varDecl nid tok)) ∧
    (∀ (nm : String) (l1 c1 l2 c2 : Nat) (v : Int),
      ∃ m, analyze (.program
          [.ifStmt (.literal 1) (.varDecl 0 ⟨.ID, nm, l1, c1⟩) none,
           .assign 1 ⟨.ID, nm, l2, c2⟩ (.literal v)]) = .ok m ∧
        lookupSlot m 0 = some 0 ∧ lookupSlot m 1 = some 0) ∧
    (∀ (nm : String) (l1 c1 l2 c2 : Nat) (v : Int),
      ∃ m, analyze (.program
          [.whileStmt (.literal 0) (.varDecl 0 ⟨.ID, nm, l1, c1⟩),
           .assign 1 ⟨.ID, nm, l2, c2⟩ (.literal v)]) = .ok m ∧
        lookupSlot m 0 = some 0 ∧ lookupSlot m 1 = some 0) := by
  refine ⟨?_, ?_, ?_, ?_⟩
  · intro st w nid tok
    simp only [analyzeNode, bind, Except.bind]
    all_goals split <;> first | rfl | (rename_i heq; exact heq.symm)
  · intro st w nid tok
    simp only [analyzeNode, bind, Except.bind]
    all_goals split <;> first | rfl | (rename_i heq; exact heq.symm)
  · intro nm l1 c1 l2 c2 v
    refine ⟨[(1, 0), (0, 0)], ?_, rfl, rfl⟩
    simp [analyze, analyzeNode, analyzeStmts, semInit, currentScope, declareVar,
      resolveVar, bind, Except.bind, Except.map, List.lookup]
  · intro nm l1 c1 l2 c2 v
    refine ⟨[(1, 0), (0, 0)], ?_, rfl, rfl⟩
    simp [analyze, analyzeNode, analyzeStmts, semInit, currentScope, declareVar,
      resolveVar, bind, Except.bind, Except.map, List.lookup]


/-- C6 witness: the counter-freshness conjunct applied to a concrete
declaration analyzed in the initial state. -/
theorem c6_witness :
    (⟨[[("x", 0)]], 1, [(0, 0)]⟩ : SemState).varToSlot =
        (0, semInit.slotCounter) :: semInit.varToSlot ∧
      (⟨[[("x", 0)]], 1, [(0, 0)]⟩ : SemState).slotCounter = semInit.slotCounter + 1 :=
  c6_shadowing_distinct_slots.2.2 semInit 0 ⟨.ID, "x", 1, 5⟩ ⟨[[("x", 0)]], 1, [(0, 0)]⟩ rfl

/-! ### Claim C2: every jump operand is a valid index -/

/-- All jump instructions in the buffer have a defined operand bounded by the
buffer length (a patch target recorded "just past" already-emitted code may
momentarily equal the current length; the trailing `HALT` makes every bound
strict in the final sequence). -/
def JumpsBounded (l : List Instruction) : Prop :=
  ∀ inst ∈ l, (inst.op = .JMP ∨ inst.op = .JMP_IF_FALSE) →
    ∃ t : Nat, inst.operand = some (t : Int) ∧ t ≤ l.length

/-- Patching never changes the buffer length. -/
theorem patch_length (l : List Instruction) (i v : Nat) : (patch l i v).length = l.length := by
  unfold patch
  cases l.get? i <;> simp

/-- Emitting appends exactly one instruction. -/
theorem le_emit_length (l : List Instruction) (op : OpCode) (operand : Option Int)
    (comment : Option String) : l.length ≤ (emit l op operand comment).length := by
  simp [emit]

/-- Appending one instruction preserves the invariant, provided the new
instruction is either not a jump or jumps at most to the current length. -/
theorem JumpsBounded_emit (l : List Instruction) (op : OpCode) (operand : Option Int)
    (comment : Option String) (hl : JumpsBounded l)
    (hop : (op = .JMP ∨ op = .JMP_IF_FALSE) →
      ∃ t : Nat, operand = some (t : Int) ∧ t ≤ l.length) :
    JumpsBounded (emit l op operand comment) := by
  intro inst hmem hj
  rw [emit, List.mem_append] at hmem
  rcases hmem with hmem | hmem
  · obtain ⟨t, ht, hb⟩ := hl inst hmem hj
    refine ⟨t, ht, ?_⟩
    simp only [emit, List.length_append, List.length_singleton]
    omega
  · rw [List.mem_singleton] at hmem
    subst hmem
    obtain ⟨t, ht, hb⟩ := hop hj
    refine ⟨t, ht, ?_⟩
    simp only [emit, List.length_append, List.length_singleton]
    omega

/-- Patching an operand to a target bounded by the length preserves the
invariant. -/
theorem JumpsBounded_patch (l : List Instruction) (i v : Nat) (hl : JumpsBounded l)
    (hv : v ≤ l.length) : JumpsBounded (patch l i v) := by
  intro inst hmem hj
  rw [patch_length]
  unfold patch at hmem
  cases hg : l.get? i with
  | none =>
    rw [hg] at hmem
    exact hl inst hmem hj
  | some inst0 =>
    rw [hg] at hmem
    rcases List.mem_or_eq_of_mem_set hmem with hmem' | heq
    · exact hl inst hmem' hj
    · subst heq
      exact ⟨v, rfl, hv⟩

mutual

/-- Code generation only appends to the buffer: lengths are monotone. -/
theorem genNode_length_mono : ∀ (n : ASTNode) (m : List (Nat × Nat)) (ins : List Instruction),
    ins.length ≤ (genNode m ins n).length
  | .program stmts, m, ins => genStmts_length_mono stmts m ins
  | .varDecl _ _, m, ins => by
    simp only [genNode]
    exact le_trans (le_emit_length _ _ _ _) (le_emit_length _ _ _ _)
  | .assign _ _ expr, m, ins => by
    simp only [genNode]
    exact le_trans (genNode_length_mono expr m ins) (le_emit_length _ _ _ _)
  | .printStmt expr, m, ins => by
    simp only [genNode]
    exact le_trans (genNode_length_mono expr m ins) (le_emit_length _ _ _ _)
  | .block stmts, m, ins => genStmts_length_mono stmts m ins
  | .ifStmt cond thenB none, m, ins => by
    simp only [genNode]
    rw [patch_length]
    exact le_trans (genNode_length_mono cond m ins)
      (le_trans (le_emit_length _ _ _ _) (genNode_length_mono thenB m _))
  | .ifStmt cond thenB (some e), m, ins => by
    simp only [genNode]
    rw [patch_length]
    exact le_trans (genNode_length_mono cond m ins)
      (le_trans (le_emit_length _ _ _ _)
        (le_trans (genNode_length_mono thenB m _)
          (le_trans (le_emit_length _ _ _ _)
            (le_trans (le_of_eq (patch_length _ _ _).symm)
              (genNode_length_mono e m _)))))
  | .whileStmt cond body, m, ins => by
    simp only [genNode]
    rw [patch_length]
    exact le_trans (genNode_length_mono cond m ins)
      (le_trans (le_emit_length _ _ _ _)
        (le_trans (genNode_length_mono body m _) (le_emit_length _ _ _ _)))
  | .binaryExpr left op right, m, ins => by
    simp only [genNode]
    cases ho : opcodeOf op.type with
    | none =>
      exact le_trans (genNode_length_mono left m ins) (genNode_length_mono right m _)
    | some oc =>
      exact le_trans (genNode_length_mono left m ins)
        (le_trans (genNode_length_mono right m _) (le_emit_length _ _ _ _))
  | .literal _, m, ins => by
    simp only [genNode]
    exact le_emit_length _ _ _ _
  | .identifier _ _, m, ins => by
    simp only [genNode]
    exact le_emit_length _ _ _ _

/-- Statement-list code generation only appends to the buffer. -/
theorem genStmts_length_mono : ∀ (l : List ASTNode) (m : List (Nat × Nat))
    (ins : List Instruction), ins.length ≤ (genStmts m ins l).length
  | [], _, _ => le_rfl
  | s :: rest, m, ins =>
    le_trans (genNode_length_mono s m ins) (genStmts_length_mono rest m (genNode m ins s))

end

/-- The binary-operator opcodes are never jumps. -/
theorem opcodeOf_not_jump (t : TokenType) (oc : OpCode) (h : opcodeOf t = some oc) :
    ¬(oc = .JMP ∨ oc = .JMP_IF_FALSE) := by
  cases t <;> simp [opcodeOf] at h <;> subst h <;> decide

mutual

/-- Code generation preserves the jump-target invariant: every jump emitted
or patched stays bounded by the buffer length. -/
theorem genNode_jumps : ∀ (n : ASTNode) (m : List (Nat × Nat)) (ins : List Instruction),
    JumpsBounded ins → JumpsBounded (genNode m ins n)
  | .program stmts, m, ins, h => genStmts_jumps stmts m ins h
  | .varDecl _ _, m, ins, h => by
    simp only [genNode]
    exact JumpsBounded_emit _ _ _ _
      (JumpsBounded_emit _ _ _ _ h fun hj => absurd hj (by decide))
      fun hj => absurd hj (by decide)
  | .assign _ _ expr, m, ins, h => by
    simp only [genNode]
    exact JumpsBounded_emit _ _ _ _ (genNode_jumps expr m ins h) fun hj => absurd hj (by decide)
  | .printStmt expr, m, ins, h => by
    simp only [genNode]
    exact JumpsBounded_emit _ _ _ _ (genNode_jumps expr m ins h) fun hj => absurd hj (by decide)
  | .block stmts, m, ins, h => genStmts_jumps stmts m ins h
  | .ifStmt cond thenB none, m, ins, h => by
    simp only [genNode]
    exact JumpsBounded_patch _ _ _
      (genNode_jumps thenB m _
        (JumpsBounded_emit _ _ _ _ (genNode_jumps cond m ins h)
          fun _ => ⟨0, rfl, Nat.zero_le _⟩))
      le_rfl
  | .ifStmt cond thenB (some e), m, ins, h => by
    simp only [genNode]
    exact JumpsBounded_patch _ _ _
      (genNode_jumps e m _
        (JumpsBounded_patch _ _ _
          (JumpsBounded_emit _ _ _ _
            (genNode_jumps thenB m _
              (JumpsBounded_emit _ _ _ _ (genNode_jumps cond m ins h)
                fun _ => ⟨0, rfl, Nat.zero_le _⟩))
            fun _ => ⟨0, rfl, Nat.zero_le _⟩)
          le_rfl))
      le_rfl
  | .whileStmt cond body, m, ins, h => by
    simp only [genNode]
    exact JumpsBounded_patch _ _ _
      (JumpsBounded_emit _ _ _ _
        (genNode_jumps body m _
          (JumpsBounded_emit _ _ _ _ (genNode_jumps cond m ins h)
            fun _ => ⟨0, rfl, Nat.zero_le _⟩))
        fun _ => ⟨ins.length, rfl,
          le_trans (genNode_length_mono cond m ins)
            (le_trans (le_emit_length _ _ _ _) (genNode_length_mono body m _))⟩)
      le_rfl
  | .binaryExpr left op right, m, ins, h => by
    simp only [genNode]
    cases ho : opcodeOf op.type with
    | none =>
      exact genNode_jumps right m _ (genNode_jumps left m ins h)
    | some oc =>
      exact JumpsBounded_emit _ _ _ _ (genNode_jumps right m _ (genNode_jumps left m ins h))
        fun hj => absurd hj (opcodeOf_not_jump op.type oc ho)
  | .literal _, m, ins, h => by
    simp only [genNode]
    exact JumpsBounded_emit _ _ _ _ h fun hj => absurd hj (by decide)
  | .identifier _ _, m, ins, h => by
    simp only [genNode]
    exact JumpsBounded_emit _ _ _ _ h fun hj => absurd hj (by decide)

/-- Statement-list code generation preserves the jump-target invariant. -/
theorem genStmts_jumps : ∀ (l : List ASTNode) (m : List (Nat × Nat)) (ins : List Instruction),
    JumpsBounded ins → JumpsBounded (genStmts m ins l)
  | [], _, _, h => h
  | s :: rest, m, ins, h => genStmts_jumps rest m (genNode m ins s) (genNode_jumps s m ins h)

end

/-- C2: for every program AST and resolution map produced by a successful
semantic pass, after code generation completes (including the trailing
`HALT`), every `JMP` and `JMP_IF_FALSE` instruction in the returned sequence
has a defined operand that is a valid index into the sequence:
`0 ≤ operand < length` — including the jumps of an `if` or `while` that is
the last statement of the program (the property is proved for every AST and
map, and stated under the claim's hypothesis). -/
theorem c2_jump_targets_valid (ast : ASTNode) (m : List (Nat × Nat))
    (h : analyze ast = .ok m) :
    ∀ inst ∈ generate m ast, (inst.op = .JMP ∨ inst.op = .JMP_IF_FALSE) →
      ∃ t : Nat, inst.operand = some (t : Int) ∧ t < (generate m ast).length := by
  intro inst hmem hj
  have hb := genNode_jumps ast m [] (by intro i hi hji; cases hi)
  unfold generate getBytecode at hmem ⊢
  rw [emit, List.mem_append] at hmem
  rcases hmem with hmem | hmem
  · obtain ⟨t, ht, hbnd⟩ := hb inst hmem hj
    refine ⟨t, ht, ?_⟩
    simp only [emit, List.length_append, List.length_singleton]
    omega
  · rw [List.mem_singleton] at hmem
    subst hmem
    rcases hj with hj | hj <;> cases hj

/-- C2 witness: in the compilation of a program whose last statement is a
`while`, the backpatched `JMP_IF_FALSE` points into the sequence. -/
theorem c2_witness :
    ∃ t : Nat, (Instruction.mk .JMP_IF_FALSE (some 3) none).operand = some (t : Int) ∧
      t < (generate [] (.program [.whileStmt (.literal 1) (.block [])])).length :=
  c2_jump_targets_valid (.program [.whileStmt (.literal 1) (.block [])]) [] rfl
    ⟨.JMP_IF_FALSE, some 3, none⟩ (by decide) (Or.inr rfl)


/-! ### Claim C7: the VM never throws on pipeline-compiled programs

The proof goes through a bytecode-verification argument: parser outputs are
well-formed (expressions in expression positions, statements in statement
positions), the analyzer resolves every map-keyed node, the generated code
admits a stack-depth map consistent with every instruction obtained from the
structure of statements (depth 0 at statement boundaries) and expressions
(jump-free, net depth +1), and the VM preserves "stack length = depth at
instruction pointer", so no pop underflows, every needed operand is present,
and the run loop can only finish or halt — never throw. -/

mutual

/-- Nodes the parser can produce in expression position. -/
inductive IsExpr : ASTNode → Prop
  | literal (v : Int) : IsExpr (.literal v)
  | identifier (nid : Nat) (name : Token) : IsExpr (.identifier nid name)
  | binaryExpr {l r : ASTNode} (op : Token) : IsExpr l → IsExpr r →
      (opcodeOf op.type).isSome → IsExpr (.binaryExpr l op r)

/-- Nodes the parser can produce in statement position. -/
inductive IsStmt : ASTNode → Prop
  | varDecl (nid : Nat) (name : Token) : IsStmt (.varDecl nid name)
  | assign {e : ASTNode} (nid : Nat) (name : Token) : IsExpr e → IsStmt (.assign nid name e)
  | printStmt {e : ASTNode} : IsExpr e → IsStmt (.printStmt e)
  | block {stmts : List ASTNode} : (∀ s ∈ stmts, IsStmt s) → IsStmt (.block stmts)
  | ifStmt {c t : ASTNode} (eo : Option ASTNode) : IsExpr c → IsStmt t →
      (∀ e, eo = some e → IsStmt e) → IsStmt (.ifStmt c t eo)
  | whileStmt {c b : ASTNode} : IsExpr c → IsStmt b → IsStmt (.whileStmt c b)

end

/-- The well-formedness guaranteed for the result of each parser production. -/
def ModeWF : PMode → ASTNode → Prop
  | .statementM => IsStmt
  | .varDeclM => IsStmt
  | .printStmtM => IsStmt
  | .ifStmtM => IsStmt
  | .whileStmtM => IsStmt
  | .assignStmtM => IsStmt
  | .blockLoopM stmts => fun node => (∀ s ∈ stmts, IsStmt s) → IsStmt node
  | .programLoopM stmts => fun node =>
      (∀ s ∈ stmts, IsStmt s) → ∃ l, node = .program l ∧ ∀ s ∈ l, IsStmt s
  | .expressionM => IsExpr
  | .comparisonM => IsExpr
  | .termM => IsExpr
  | .factorM => IsExpr
  | .primaryM => IsExpr
  | .comparisonLoopM e => fun node => IsExpr e → IsExpr node
  | .termLoopM e => fun node => IsExpr e → IsExpr node
  | .factorLoopM e => fun node => IsExpr e → IsExpr node

/-- A successful `check` pins down the current token's kind. -/
theorem checkP_type {st : PState} {ty : TokenType} (h : checkP st ty = true) :
    (peekTok st).type = ty := by
  unfold checkP at h
  split at h
  · cases h
  · exact of_decide_eq_true h

/-- `advance` returns the token `peek` saw. -/
theorem advanceP_fst (st : PState) : (advanceP st).1 = peekTok st := by
  unfold advanceP
  split <;> rfl

/-- Eliminate a successful `Except` bind. -/
theorem bind_ok_elim {α β : Type} {x : Except String α} {f : α → Except String β} {b : β}
    (h : (x >>= f) = .ok b) : ∃ a, x = .ok a ∧ f a = .ok b := by
  cases x with
  | error e => exact absurd h (by simp [Bind.bind, Except.bind])
  | ok a => exact ⟨a, rfl, by simpa [Bind.bind, Except.bind] using h⟩


/-- Extract the node from a successful production result. -/
theorem ok_fst {a : ASTNode} {s : PState} {node : ASTNode} {st' : PState}
    (h : (Except.ok (a, s) : Except String (ASTNode × PState)) = .ok (node, st')) :
    node = a := by
  injection h with h'
  exact (congrArg Prod.fst h').symm

/-- Every successful parser production yields a node that is well-formed for
that production: statement productions yield `IsStmt` nodes, expression
productions yield `IsExpr` nodes (in particular, every `BinaryExpr` operator
is one the code generator knows). -/
theorem parseRun_wf : ∀ (fuel : Nat) (mode : PMode) (st : PState) (node : ASTNode) (st' : PState),
    parseRun fuel mode st = .ok (node, st') → ModeWF mode node := by
  intro fuel
  induction fuel with
  | zero =>
    intro mode st node st' h
    exact Except.noConfusion h
  | succ fuel ih =>
    intro mode st node st' h
    cases mode with
    | statementM =>
      simp only [parseRun] at h
      repeat' split at h
      all_goals first
        | { have hw := ih _ _ _ _ h; exact hw }
        | { have hw := ih _ _ _ _ h
            exact hw (by intro s hs; cases hs) }
    | varDeclM =>
      simp only [parseRun] at h
      obtain ⟨a, ha, h⟩ := bind_ok_elim h
      obtain ⟨name, st1⟩ := a
      dsimp only at h
      obtain ⟨a, ha2, h⟩ := bind_ok_elim h
      obtain ⟨t2, st2⟩ := a
      dsimp only [freshId] at h
      obtain rfl := ok_fst h
      exact IsStmt.varDecl _ _
    | printStmtM =>
      simp only [parseRun] at h
      obtain ⟨a, ha, h⟩ := bind_ok_elim h
      obtain ⟨t1, st1⟩ := a
      dsimp only at h
      obtain ⟨a, he, h⟩ := bind_ok_elim h
      obtain ⟨expr, st2⟩ := a
      dsimp only at h
      obtain ⟨a, ha2, h⟩ := bind_ok_elim h
      obtain ⟨t3, st3⟩ := a
      dsimp only at h
      obtain ⟨a, ha3, h⟩ := bind_ok_elim h
      obtain ⟨t4, st4⟩ := a
      dsimp only at h
      obtain rfl := ok_fst h
      exact IsStmt.printStmt (ih _ _ _ _ he)
    | ifStmtM =>
      simp only [parseRun] at h
      obtain ⟨a, ha, h⟩ := bind_ok_elim h
      obtain ⟨t1, st1⟩ := a
      dsimp only at h
      obtain ⟨a, hc, h⟩ := bind_ok_elim h
      obtain ⟨cond, st2⟩ := a
      dsimp only at h
      obtain ⟨a, ha2, h⟩ := bind_ok_elim h
      obtain ⟨t3, st3⟩ := a
      dsimp only at h
      obtain ⟨a, ht, h⟩ := bind_ok_elim h
      obtain ⟨thenB, st4⟩ := a
      dsimp only at h
      split at h
      · obtain ⟨a, he, h⟩ := bind_ok_elim h
        obtain ⟨elseB, st5⟩ := a
        dsimp only at h
        obtain rfl := ok_fst h
        refine IsStmt.ifStmt _ (ih _ _ _ _ hc) (ih _ _ _ _ ht) ?_
        intro e hee
        injection hee with hee'
        exact hee' ▸ ih _ _ _ _ he
      · obtain rfl := ok_fst h
        refine IsStmt.ifStmt none (ih _ _ _ _ hc) (ih _ _ _ _ ht) ?_
        intro e hee
        exact Option.noConfusion hee
    | whileStmtM =>
      simp only [parseRun] at h
      obtain ⟨a, ha, h⟩ := bind_ok_elim h
      obtain ⟨t1, st1⟩ := a
      dsimp only at h
      obtain ⟨a, hc, h⟩ := bind_ok_elim h
      obtain ⟨cond, st2⟩ := a
      dsimp only at h
      obtain ⟨a, ha2, h⟩ := bind_ok_elim h
      obtain ⟨t3, st3⟩ := a
      dsimp only at h
      obtain ⟨a, hb, h⟩ := bind_ok_elim h
      obtain ⟨body, st4⟩ := a
      dsimp only at h
      obtain rfl := ok_fst h
      exact IsStmt.whileStmt (ih _ _ _ _ hc) (ih _ _ _ _ hb)
    | blockLoopM stmts =>
      simp only [parseRun] at h
      split at h
      · obtain ⟨a, hs, h⟩ := bind_ok_elim h
        obtain ⟨s, st1⟩ := a
        dsimp only at h
        intro hall
        refine ih _ _ _ _ h ?_
        intro x hx
        rcases List.mem_append.mp hx with hx | hx
        · exact hall x hx
        · rcases List.mem_singleton.mp hx with rfl
          exact ih _ _ _ _ hs
      · obtain ⟨a, ha, h⟩ := bind_ok_elim h
        obtain ⟨t1, st1⟩ := a
        dsimp only at h
        obtain rfl := ok_fst h
        intro hall
        exact IsStmt.block hall
    | assignStmtM =>
      simp only [parseRun] at h
      obtain ⟨a, ha, h⟩ := bind_ok_elim h
      obtain ⟨name, st1⟩ := a
      dsimp only at h
      obtain ⟨a, ha2, h⟩ := bind_ok_elim h
      obtain ⟨t2, st2⟩ := a
      dsimp only at h
      obtain ⟨a, he, h⟩ := bind_ok_elim h
      obtain ⟨expr, st3⟩ := a
      dsimp only at h
      obtain ⟨a, ha3, h⟩ := bind_ok_elim h
      obtain ⟨t4, st4⟩ := a
      dsimp only [freshId] at h
      obtain rfl := ok_fst h
      exact IsStmt.assign _ _ (ih _ _ _ _ he)
    | expressionM =>
      simp only [parseRun] at h
      have hw := ih _ _ _ _ h
      exact hw
    | comparisonM =>
      simp only [parseRun] at h
      obtain ⟨a, he, h⟩ := bind_ok_elim h
      obtain ⟨expr, st1⟩ := a
      dsimp only at h
      have hw := ih _ _ _ _ h
      have hw2 := ih _ _ _ _ he
      exact hw hw2
    | comparisonLoopM expr =>
      simp only [parseRun] at h
      split at h
      · rename_i hg
        rcases hadv : advanceP st with ⟨op, st1⟩
        rw [hadv] at h
        dsimp only at h
        have hopk : op = peekTok st := by rw [← advanceP_fst st, hadv]
        have hops : (opcodeOf op.type).isSome := by
          simp only [Bool.or_eq_true] at hg
          rw [hopk]
          rcases hg with ((((hg | hg) | hg) | hg) | hg) | hg <;> rw [checkP_type hg] <;> rfl
        obtain ⟨a, hr, h⟩ := bind_ok_elim h
        obtain ⟨right, st2⟩ := a
        dsimp only at h
        intro he
        have hw := ih _ _ _ _ h
        have hw2 := ih _ _ _ _ hr
        exact hw (IsExpr.binaryExpr op he hw2 hops)
      · obtain rfl := ok_fst h
        exact id
    | termM =>
      simp only [parseRun] at h
      obtain ⟨a, he, h⟩ := bind_ok_elim h
      obtain ⟨expr, st1⟩ := a
      dsimp only at h
      have hw := ih _ _ _ _ h
      have hw2 := ih _ _ _ _ he
      exact hw hw2
    | termLoopM expr =>
      simp only [parseRun] at h
      split at h
      · rename_i hg
        rcases hadv : advanceP st with ⟨op, st1⟩
        rw [hadv] at h
        dsimp only at h
        have hopk : op = peekTok st := by rw [← advanceP_fst st, hadv]
        have hops : (opcodeOf op.type).isSome := by
          simp only [Bool.or_eq_true] at hg
          rw [hopk]
          rcases hg with hg | hg <;> rw [checkP_type hg] <;> rfl
        obtain ⟨a, hr, h⟩ := bind_ok_elim h
        obtain ⟨right, st2⟩ := a
        dsimp only at h
        intro he
        have hw := ih _ _ _ _ h
        have hw2 := ih _ _ _ _ hr
        exact hw (IsExpr.binaryExpr op he hw2 hops)
      · obtain rfl := ok_fst h
        exact id
    | factorM =>
      simp only [parseRun] at h
      obtain ⟨a, he, h⟩ := bind_ok_elim h
      obtain ⟨expr, st1⟩ := a
      dsimp only at h
      have hw := ih _ _ _ _ h
      have hw2 := ih _ _ _ _ he
      exact hw hw2
    | factorLoopM expr =>
      simp only [parseRun] at h
      split at h
      · rename_i hg
        rcases hadv : advanceP st with ⟨op, st1⟩
        rw [hadv] at h
        dsimp only at h
        have hopk : op = peekTok st := by rw [← advanceP_fst st, hadv]
        have hops : (opcodeOf op.type).isSome := by
          simp only [Bool.or_eq_true] at hg
          rw [hopk]
          rcases hg with (hg | hg) | hg <;> rw [checkP_type hg] <;> rfl
        obtain ⟨a, hr, h⟩ := bind_ok_elim h
        obtain ⟨right, st2⟩ := a
        dsimp only at h
        intro he
        have hw := ih _ _ _ _ h
        have hw2 := ih _ _ _ _ hr
        exact hw (IsExpr.binaryExpr op he hw2 hops)
      · obtain rfl := ok_fst h
        exact id
    | primaryM =>
      simp only [parseRun] at h
      split at h
      · rcases hadv : advanceP st with ⟨tok, st1⟩
        rw [hadv] at h
        dsimp only at h
        obtain rfl := ok_fst h
        exact IsExpr.literal _
      · split at h
        · rcases hadv : advanceP st with ⟨tok, st1⟩
          rw [hadv] at h
          dsimp only [freshId] at h
          obtain rfl := ok_fst h
          exact IsExpr.identifier _ _
        · split at h
          · obtain ⟨a, he, h⟩ := bind_ok_elim h
            obtain ⟨expr, st1⟩ := a
            dsimp only at h
            obtain ⟨a, ha, h⟩ := bind_ok_elim h
            obtain ⟨t2, st2⟩ := a
            dsimp only at h
            obtain rfl := ok_fst h
            have hw := ih _ _ _ _ he
            exact hw
          · exact Except.noConfusion h
    | programLoopM stmts =>
      simp only [parseRun] at h
      split at h
      · obtain ⟨a, hs, h⟩ := bind_ok_elim h
        obtain ⟨s, st1⟩ := a
        dsimp only at h
        intro hall
        refine ih _ _ _ _ h ?_
        intro x hx
        rcases List.mem_append.mp hx with hx | hx
        · exact hall x hx
        · rcases List.mem_singleton.mp hx with rfl
          exact ih _ _ _ _ hs
      · obtain rfl := ok_fst h
        intro hall
        exact ⟨stmts, rfl, hall⟩

/-- `Parser.parse` produces a `Program` node whose statements are all
well-formed. -/
theorem parse_wf {toks : List Token} {ast : ASTNode} (h : parse toks = .ok ast) :
    ∃ l, ast = .program l ∧ ∀ s ∈ l, IsStmt s := by
  unfold parse at h
  obtain ⟨a, ha, h⟩ := bind_ok_elim h
  obtain ⟨node, st'⟩ := a
  dsimp only at h
  injection h with h'
  exact h' ▸ parseRun_wf _ _ _ _ _ ha (by intro s hs; cases hs)


mutual

/-- The map-keyed node ids occurring in a node: exactly the `VarDecl`,
`Assign` and `Identifier` nodes the analyzer inserts into `varToSlot` and the
code generator reads back. -/
def collectIds : ASTNode → List Nat
  | .program stmts => collectIdsList stmts
  | .varDecl nid _ => [nid]
  | .assign nid _ e => nid :: collectIds e
  | .printStmt e => collectIds e
  | .block stmts => collectIdsList stmts
  | .ifStmt c t eo =>
    collectIds c ++ collectIds t ++ (match eo with | some e => collectIds e | none => [])
  | .whileStmt c b => collectIds c ++ collectIds b
  | .binaryExpr l _ r => collectIds l ++ collectIds r
  | .literal _ => []
  | .identifier nid _ => [nid]

/-- The map-keyed node ids of a statement list. -/
def collectIdsList : List ASTNode → List Nat
  | [] => []
  | s :: rest => collectIds s ++ collectIdsList rest

end

/-- Every map-keyed node of `n` has a slot in `m`. -/
def Resolved (m : List (Nat × Nat)) (n : ASTNode) : Prop :=
  ∀ k ∈ collectIds n, (lookupSlot m k).isSome

/-- A key found in a map is still found after prepending entries. -/
theorem lookupSlot_isSome_append (p l : List (Nat × Nat)) (k : Nat)
    (h : (lookupSlot l k).isSome) : (lookupSlot (p ++ l) k).isSome := by
  induction p with
  | nil => exact h
  | cons x p ihp =>
    obtain ⟨k1, v1⟩ := x
    show (List.lookup k ((k1, v1) :: (p ++ l))).isSome
    rw [List.lookup]
    cases k == k1
    · exact ihp
    · rfl

/-- Looking up the key just inserted. -/
theorem lookupSlot_cons_self (k v : Nat) (l : List (Nat × Nat)) :
    lookupSlot ((k, v) :: l) k = some v := by
  simp [lookupSlot, List.lookup]

mutual

/-- A successful visit only prepends entries to the resolution map. -/
theorem analyzeNode_map_extends : ∀ (n : ASTNode) (st st' : SemState),
    analyzeNode st n = .ok st' → ∃ p, st'.varToSlot = p ++ st.varToSlot
  | .program stmts, st, st', h => analyzeStmts_map_extends stmts st st' h
  | .varDecl nid name, st, st', h => by
    simp only [analyzeNode] at h
    by_cases hs : ((currentScope st).lookup name.lexeme).isSome
    · rw [if_pos hs] at h
      cases h
    · rw [if_neg hs] at h
      cases h
      exact ⟨[(nid, st.slotCounter)], rfl⟩
  | .assign nid name expr, st, st', h => by
    simp only [analyzeNode, bind, Except.bind] at h
    cases he : analyzeNode st expr with
    | error e => rw [he] at h; cases h
    | ok st1 =>
      rw [he] at h
      dsimp only at h
      cases hr : resolveVar st1.scopes name.lexeme with
      | none => rw [hr] at h; cases h
      | some slot =>
        rw [hr] at h
        cases h
        obtain ⟨p, hp⟩ := analyzeNode_map_extends expr st st1 he
        refine ⟨(nid, slot) :: p, ?_⟩
        rw [List.cons_append, ← hp]
  | .printStmt expr, st, st', h => analyzeNode_map_extends expr st st' h
  | .block stmts, st, st', h => by
    simp only [analyzeNode, bind, Except.bind] at h
    cases he : analyzeStmts { st with scopes := [] :: st.scopes } stmts with
    | error e => rw [he] at h; cases h
    | ok st1 =>
      rw [he] at h
      dsimp only at h
      cases h
      exact analyzeStmts_map_extends stmts { st with scopes := [] :: st.scopes } st1 he
  | .ifStmt cond thenB elseB, st, st', h => by
    simp only [analyzeNode, bind, Except.bind] at h
    cases hc : analyzeNode st cond with
    | error e => rw [hc] at h; cases h
    | ok st1 =>
      rw [hc] at h
      dsimp only at h
      cases ht : analyzeNode st1 thenB with
      | error e => rw [ht] at h; cases h
      | ok st2 =>
        rw [ht] at h
        dsimp only at h
        obtain ⟨p1, hp1⟩ := analyzeNode_map_extends cond st st1 hc
        obtain ⟨p2, hp2⟩ := analyzeNode_map_extends thenB st1 st2 ht
        cases elseB with
        | none =>
          simp only at h
          cases h
          exact ⟨p2 ++ p1, by rw [hp2, hp1, List.append_assoc]⟩
        | some e =>
          simp only at h
          obtain ⟨p3, hp3⟩ := analyzeNode_map_extends e st2 st' h
          exact ⟨p3 ++ (p2 ++ p1), by rw [hp3, hp2, hp1]; simp [List.append_assoc]⟩
  | .whileStmt cond body, st, st', h => by
    simp only [analyzeNode, bind, Except.bind] at h
    cases hc : analyzeNode st cond with
    | error e => rw [hc] at h; cases h
    | ok st1 =>
      rw [hc] at h
      dsimp only at h
      obtain ⟨p1, hp1⟩ := analyzeNode_map_extends cond st st1 hc
      obtain ⟨p2, hp2⟩ := analyzeNode_map_extends body st1 st' h
      exact ⟨p2 ++ p1, by rw [hp2, hp1, List.append_assoc]⟩
  | .binaryExpr left op right, st, st', h => by
    simp only [analyzeNode, bind, Except.bind] at h
    cases hl : analyzeNode st left with
    | error e => rw [hl] at h; cases h
    | ok st1 =>
      rw [hl] at h
      dsimp only at h
      obtain ⟨p1, hp1⟩ := analyzeNode_map_extends left st st1 hl
      obtain ⟨p2, hp2⟩ := analyzeNode_map_extends right st1 st' h
      exact ⟨p2 ++ p1, by rw [hp2, hp1, List.append_assoc]⟩
  | .literal v, st, st', h => by
    simp only [analyzeNode] at h
    cases h
    exact ⟨[], rfl⟩
  | .identifier nid name, st, st', h => by
    simp only [analyzeNode] at h
    cases hr : resolveVar st.scopes name.lexeme with
    | none => rw [hr] at h; cases h
    | some slot =>
      rw [hr] at h
      cases h
      exact ⟨[(nid, slot)], rfl⟩

/-- A successful statement-list visit only prepends entries to the map. -/
theorem analyzeStmts_map_extends : ∀ (l : List ASTNode) (st st' : SemState),
    analyzeStmts st l = .ok st' → ∃ p, st'.varToSlot = p ++ st.varToSlot
  | [], st, st', h => by
    simp only [analyzeStmts] at h
    cases h
    exact ⟨[], rfl⟩
  | s :: rest, st, st', h => by
    simp only [analyzeStmts, bind, Except.bind] at h
    cases hs : analyzeNode st s with
    | error e => rw [hs] at h; cases h
    | ok st1 =>
      rw [hs] at h
      dsimp only at h
      obtain ⟨p1, hp1⟩ := analyzeNode_map_extends s st st1 hs
      obtain ⟨p2, hp2⟩ := analyzeStmts_map_extends rest st1 st' h
      exact ⟨p2 ++ p1, by rw [hp2, hp1, List.append_assoc]⟩

end

mutual

/-- After a successful visit, every map-keyed node of the visited node has a
slot in the resulting resolution map. -/
theorem analyzeNode_resolved : ∀ (n : ASTNode) (st st' : SemState),
    analyzeNode st n = .ok st' → ∀ k ∈ collectIds n, (lookupSlot st'.varToSlot k).isSome
  | .program stmts, st, st', h => analyzeStmts_resolved stmts st st' h
  | .varDecl nid name, st, st', h => by
    simp only [analyzeNode] at h
    by_cases hs : ((currentScope st).lookup name.lexeme).isSome
    · rw [if_pos hs] at h
      cases h
    · rw [if_neg hs] at h
      cases h
      intro k hk
      rcases List.mem_singleton.mp hk with rfl
      rw [lookupSlot_cons_self]
      rfl
  | .assign nid name expr, st, st', h => by
    simp only [analyzeNode, bind, Except.bind] at h
    cases he : analyzeNode st expr with
    | error e => rw [he] at h; cases h
    | ok st1 =>
      rw [he] at h
      dsimp only at h
      cases hr : resolveVar st1.scopes name.lexeme with
      | none => rw [hr] at h; cases h
      | some slot =>
        rw [hr] at h
        cases h
        intro k hk
        rcases List.mem_cons.mp hk with rfl | hk
        · rw [lookupSlot_cons_self]
          rfl
        · exact lookupSlot_isSome_append [(nid, slot)] _ k
            (analyzeNode_resolved expr st st1 he k hk)
  | .printStmt expr, st, st', h => analyzeNode_resolved expr st st' h
  | .block stmts, st, st', h => by
    simp only [analyzeNode, bind, Except.bind] at h
    cases he : analyzeStmts { st with scopes := [] :: st.scopes } stmts with
    | error e => rw [he] at h; cases h
    | ok st1 =>
      rw [he] at h
      dsimp only at h
      cases h
      exact analyzeStmts_resolved stmts { st with scopes := [] :: st.scopes } st1 he
  | .ifStmt cond thenB elseB, st, st', h => by
    simp only [analyzeNode, bind, Except.bind] at h
    cases hc : analyzeNode st cond with
    | error e => rw [hc] at h; cases h
    | ok st1 =>
      rw [hc] at h
      dsimp only at h
      cases ht : analyzeNode st1 thenB with
      | error e => rw [ht] at h; cases h
      | ok st2 =>
        rw [ht] at h
        dsimp only at h
        cases elseB with
        | none =>
          simp only at h
          cases h
          intro k hk
          simp only [collectIds, List.append_nil, List.mem_append] at hk
          obtain ⟨p2, hp2⟩ := analyzeNode_map_extends thenB st1 st' ht
          rcases hk with hk | hk
          · rw [hp2]
            exact lookupSlot_isSome_append p2 _ k (analyzeNode_resolved cond st st1 hc k hk)
          · exact analyzeNode_resolved thenB st1 st' ht k hk
        | some e =>
          simp only at h
          intro k hk
          simp only [collectIds, List.mem_append] at hk
          obtain ⟨p2, hp2⟩ := analyzeNode_map_extends thenB st1 st2 ht
          obtain ⟨p3, hp3⟩ := analyzeNode_map_extends e st2 st' h
          rcases hk with (hk | hk) | hk
          · rw [hp3, hp2]
            exact lookupSlot_isSome_append p3 _ k (lookupSlot_isSome_append p2 _ k
              (analyzeNode_resolved cond st st1 hc k hk))
          · rw [hp3]
            exact lookupSlot_isSome_append p3 _ k (analyzeNode_resolved thenB st1 st2 ht k hk)
          · exact analyzeNode_resolved e st2 st' h k hk
  | .whileStmt cond body, st, st', h => by
    simp only [analyzeNode, bind, Except.bind] at h
    cases hc : analyzeNode st cond with
    | error e => rw [hc] at h; cases h
    | ok st1 =>
      rw [hc] at h
      dsimp only at h
      intro k hk
      simp only [collectIds, List.mem_append] at hk
      obtain ⟨p2, hp2⟩ := analyzeNode_map_extends body st1 st' h
      rcases hk with hk | hk
      · rw [hp2]
        exact lookupSlot_isSome_append p2 _ k (analyzeNode_resolved cond st st1 hc k hk)
      · exact analyzeNode_resolved body st1 st' h k hk
  | .binaryExpr left op right, st, st', h => by
    simp only [analyzeNode, bind, Except.bind] at h
    cases hl : analyzeNode st left with
    | error e => rw [hl] at h; cases h
    | ok st1 =>
      rw [hl] at h
      dsimp only at h
      intro k hk
      simp only [collectIds, List.mem_append] at hk
      obtain ⟨p2, hp2⟩ := analyzeNode_map_extends right st1 st' h
      rcases hk with hk | hk
      · rw [hp2]
        exact lookupSlot_isSome_append p2 _ k (analyzeNode_resolved left st st1 hl k hk)
      · exact analyzeNode_resolved right st1 st' h k hk
  | .literal v, st, st', h => by
    intro k hk
    cases hk
  | .identifier nid name, st, st', h => by
    simp only [analyzeNode] at h
    cases hr : resolveVar st.scopes name.lexeme with
    | none => rw [hr] at h; cases h
    | some slot =>
      rw [hr] at h
      cases h
      intro k hk
      rcases List.mem_singleton.mp hk with rfl
      rw [lookupSlot_cons_self]
      rfl

/-- After a successful statement-list visit, every map-keyed node of the list
has a slot in the resulting resolution map. -/
theorem analyzeStmts_resolved : ∀ (l : List ASTNode) (st st' : SemState),
    analyzeStmts st l = .ok st' → ∀ k ∈ collectIdsList l, (lookupSlot st'.varToSlot k).isSome
  | [], st, st', h => by
    intro k hk
    cases hk
  | s :: rest, st, st', h => by
    simp only [analyzeStmts, bind, Except.bind] at h
    cases hs : analyzeNode st s with
    | error e => rw [hs] at h; cases h
    | ok st1 =>
      rw [hs] at h
      dsimp only at h
      intro k hk
      simp only [collectIdsList, List.mem_append] at hk
      obtain ⟨p2, hp2⟩ := analyzeStmts_map_extends rest st1 st' h
      rcases hk with hk | hk
      · rw [hp2]
        exact lookupSlot_isSome_append p2 _ k (analyzeNode_resolved s st st1 hs k hk)
      · exact analyzeStmts_resolved rest st1 st' h k hk

end

/-- A successful `analyze` resolves every map-keyed node of the program. -/
theorem analyze_resolved {ast : ASTNode} {m : List (Nat × Nat)}
    (h : analyze ast = .ok m) : Resolved m ast := by
  unfold analyze at h
  cases ha : analyzeNode semInit ast with
  | error e => rw [ha] at h; cases h
  | ok stf =>
    rw [ha] at h
    simp only [Except.map] at h
    injection h with h'
    intro k hk
    rw [← h']
    exact analyzeNode_resolved ast semInit stf ha k hk

/-! ### The code generator as prefix plus segment

`genNode` only appends to the buffer and patches within the appended part, so
the code it produces for a node is the incoming buffer followed by a segment
that depends on the buffer only through its length (the absolute offset at
which the segment will sit).  `nodeDelta` computes that segment directly, with
all patches already applied; the equality is proved below. -/

/-- Reading past a prefix. -/
theorem get_append_right_len {α : Type} (l1 l2 : List α) (i : Nat) :
    (l1 ++ l2).get? (l1.length + i) = l2.get? i := by
  induction l1 with
  | nil => simp
  | cons x l1 ih =>
    show ((x :: (l1 ++ l2)).get? (l1.length + 1 + i)) = l2.get? i
    rw [Nat.add_right_comm]
    exact ih

/-- Reading the element just past a prefix. -/
theorem get_append_self {α : Type} (l1 : List α) (x : α) (l2 : List α) :
    (l1 ++ x :: l2).get? l1.length = some x := by
  have h2 := get_append_right_len l1 (x :: l2) 0
  rw [Nat.add_zero] at h2
  rw [h2]
  rfl

/-- Writing past a prefix. -/
theorem set_append_right_len {α : Type} (l1 l2 : List α) (i : Nat) (a : α) :
    (l1 ++ l2).set (l1.length + i) a = l1 ++ l2.set i a := by
  induction l1 with
  | nil => simp
  | cons x l1 ih =>
    show ((x :: (l1 ++ l2)).set (l1.length + 1 + i) a) = x :: (l1 ++ l2.set i a)
    rw [Nat.add_right_comm]
    show x :: ((l1 ++ l2).set (l1.length + i) a) = _
    rw [ih]

/-- Patching past a prefix patches within the suffix. -/
theorem patch_append_right (l1 l2 : List Instruction) (i : Nat) (v : Nat) :
    patch (l1 ++ l2) (l1.length + i) v = l1 ++ patch l2 i v := by
  unfold patch
  rw [get_append_right_len]
  cases hg : l2.get? i with
  | none => rfl
  | some inst =>
    dsimp only
    rw [set_append_right_len]

/-- Patching one step into a cons cell. -/
theorem patch_cons_succ (x : Instruction) (l : List Instruction) (i : Nat) (v : Nat) :
    patch (x :: l) (i + 1) v = x :: patch l i v := by
  unfold patch
  show (match l.get? i with
    | some inst => (x :: l).set (i + 1) { inst with operand := some (Int.ofNat v) }
    | none => x :: l) = _
  cases hg : l.get? i with
  | none => rfl
  | some inst => rfl

/-- Patching exactly at the boundary rewrites the head of the suffix. -/
theorem patch_at_head (l1 : List Instruction) (x : Instruction) (l2 : List Instruction)
    (v : Nat) :
    patch (l1 ++ x :: l2) l1.length v = l1 ++ { x with operand := some (Int.ofNat v) } :: l2 := by
  have h0 : patch (x :: l2) 0 v = { x with operand := some (Int.ofNat v) } :: l2 := rfl
  calc patch (l1 ++ x :: l2) l1.length v
      = patch (l1 ++ x :: l2) (l1.length + 0) v := by rw [Nat.add_zero]
    _ = l1 ++ patch (x :: l2) 0 v := patch_append_right l1 (x :: l2) 0 v
    _ = l1 ++ { x with operand := some (Int.ofNat v) } :: l2 := by rw [h0]

mutual

/-- The instruction segment `genNode` appends for a node sitting at absolute
offset `off`, with the `visitIf`/`visitWhile` patches already applied. -/
def nodeDelta (m : List (Nat × Nat)) : Nat → ASTNode → List Instruction
  | off, .program stmts => stmtsDelta m off stmts
  | _, .varDecl nid name =>
    [⟨.PUSH_INT, some 0, some ("init " ++ name.lexeme)⟩,
     ⟨.STORE, (lookupSlot m nid).map Int.ofNat, none⟩]
  | off, .assign nid name expr =>
    nodeDelta m off expr
      ++ [⟨.STORE, (lookupSlot m nid).map Int.ofNat, some ("assign " ++ name.lexeme)⟩]
  | off, .printStmt expr => nodeDelta m off expr ++ [⟨.PRINT, none, none⟩]
  | off, .block stmts => stmtsDelta m off stmts
  | off, .ifStmt cond thenB elseB =>
    let dc := nodeDelta m off cond
    let dt := nodeDelta m (off + (dc.length + 1)) thenB
    match elseB with
    | some e =>
      let de := nodeDelta m (off + (dc.length + (dt.length + 1 + 1))) e
      dc ++ ⟨.JMP_IF_FALSE, some (Int.ofNat (off + (dc.length + (dt.length + 1 + 1)))), none⟩
         :: (dt ++ ⟨.JMP,
              some (Int.ofNat (off + (dc.length + (dt.length + (de.length + 1) + 1)))), none⟩
         :: de)
    | none =>
      dc ++ ⟨.JMP_IF_FALSE, some (Int.ofNat (off + (dc.length + (dt.length + 1)))), none⟩ :: dt
  | off, .whileStmt cond body =>
    let dc := nodeDelta m off cond
    let db := nodeDelta m (off + (dc.length + 1)) body
    dc ++ ⟨.JMP_IF_FALSE, some (Int.ofNat (off + (dc.length + (db.length + 1 + 1)))), none⟩
       :: (db ++ [⟨.JMP, some (Int.ofNat off), none⟩])
  | off, .binaryExpr left op right =>
    let dl := nodeDelta m off left
    let dr := nodeDelta m (off + dl.length) right
    dl ++ dr ++ (match opcodeOf op.type with | some oc => [⟨oc, none, none⟩] | none => [])
  | _, .literal v => [⟨.PUSH_INT, some v, none⟩]
  | _, .identifier nid name =>
    [⟨.LOAD, (lookupSlot m nid).map Int.ofNat, some ("load " ++ name.lexeme)⟩]

/-- The segment a statement list appends at absolute offset `off`. -/
def stmtsDelta (m : List (Nat × Nat)) : Nat → List ASTNode → List Instruction
  | _, [] => []
  | off, s :: rest =>
    let ds := nodeDelta m off s
    ds ++ stmtsDelta m (off + ds.length) rest

end

mutual

/-- `genNode` is the incoming buffer followed by the node's segment. -/
theorem genNode_delta : ∀ (n : ASTNode) (m : List (Nat × Nat)) (ins : List Instruction),
    genNode m ins n = ins ++ nodeDelta m ins.length n
  | .program stmts, m, ins => genStmts_delta stmts m ins
  | .varDecl nid name, m, ins => by
    simp only [genNode, emit, nodeDelta, List.append_assoc, List.singleton_append]
  | .assign nid name expr, m, ins => by
    simp only [genNode, emit, nodeDelta]
    rw [genNode_delta expr]
    simp only [List.length_append, List.append_assoc]
  | .printStmt expr, m, ins => by
    simp only [genNode, emit, nodeDelta]
    rw [genNode_delta expr]
    simp only [List.length_append, List.append_assoc]
  | .block stmts, m, ins => genStmts_delta stmts m ins
  | .ifStmt cond thenB none, m, ins => by
    simp only [genNode, emit, nodeDelta]
    rw [genNode_delta cond]
    rw [genNode_delta thenB]
    simp only [List.length_append, List.length_cons, List.length_nil, Nat.zero_add,
      List.append_assoc, List.singleton_append, List.cons_append, List.nil_append]
    rw [patch_append_right]
    rw [patch_at_head]
  | .ifStmt cond thenB (some e), m, ins => by
    simp only [genNode, emit, nodeDelta]
    rw [genNode_delta cond]
    rw [genNode_delta thenB]
    simp only [List.length_append, List.length_cons, List.length_nil, Nat.zero_add,
      List.append_assoc, List.singleton_append, List.cons_append, List.nil_append]
    rw [patch_append_right]
    rw [patch_at_head]
    rw [genNode_delta e]
    simp only [List.length_append, List.length_cons, List.length_nil, Nat.zero_add,
      List.append_assoc, List.singleton_append, List.cons_append, List.nil_append]
    rw [patch_append_right]
    rw [patch_append_right]
    rw [patch_cons_succ]
    rw [patch_at_head]
  | .whileStmt cond body, m, ins => by
    simp only [genNode, emit, nodeDelta]
    rw [genNode_delta cond]
    rw [genNode_delta body]
    simp only [List.length_append, List.length_cons, List.length_nil, Nat.zero_add,
      List.append_assoc, List.singleton_append, List.cons_append, List.nil_append]
    rw [patch_append_right]
    rw [patch_at_head]
  | .binaryExpr left op right, m, ins => by
    simp only [genNode, nodeDelta]
    rw [genNode_delta left]
    rw [genNode_delta right]
    cases ho : opcodeOf op.type with
    | none => simp only [emit, List.length_append, List.append_assoc, List.append_nil]
    | some oc => simp only [emit, List.length_append, List.append_assoc]
  | .literal v, m, ins => by
    simp only [genNode, emit, nodeDelta]
  | .identifier nid name, m, ins => by
    simp only [genNode, emit, nodeDelta]

/-- `genStmts` is the incoming buffer followed by the list's segment. -/
theorem genStmts_delta : ∀ (l : List ASTNode) (m : List (Nat × Nat)) (ins : List Instruction),
    genStmts m ins l = ins ++ stmtsDelta m ins.length l
  | [], m, ins => by simp [genStmts, stmtsDelta]
  | s :: rest, m, ins => by
    simp only [genStmts, stmtsDelta]
    rw [genNode_delta s]
    rw [genStmts_delta rest]
    simp only [List.length_append, List.append_assoc]

end


/-! ### Stack-depth typing of generated segments

A depth map `d` assigns to every instruction boundary of a segment the
operand-stack depth there (relative to the segment's entry).  Expression
segments are jump-free and take depth 0 to depth 1; statement segments take
depth 0 to depth 0 and jump only within themselves (jump operands are
absolute, the segment sits at absolute offset `off`).  The VM preserves
"stack length = depth at instruction pointer", which rules out underflow and
undefined operands on generated code. -/

/-- Instruction `inst` at position `j` of a jump-free expression segment is
consistent with depth map `d`. -/
def exprInstrOK (d : Nat → Nat) (j : Nat) (inst : Instruction) : Prop :=
  match inst.op with
  | .PUSH_INT | .LOAD => inst.operand.isSome ∧ d (j + 1) = d j + 1
  | .ADD | .SUB | .MUL | .DIV | .MOD | .CMP_EQ | .CMP_NE
  | .CMP_LT | .CMP_GT | .CMP_LE | .CMP_GE => 1 ≤ d (j + 1) ∧ d j = d (j + 1) + 1
  | _ => False

/-- Instruction `inst` at position `j` (relative to `off`) of a statement
segment of length `len` sitting at absolute offset `off` is consistent with
depth map `d`. -/
def stmtInstrOK (off len : Nat) (d : Nat → Nat) (j : Nat) (inst : Instruction) : Prop :=
  match inst.op with
  | .PUSH_INT | .LOAD => inst.operand.isSome ∧ d (j + 1) = d j + 1
  | .STORE => inst.operand.isSome ∧ d j = d (j + 1) + 1
  | .PRINT => d j = d (j + 1) + 1
  | .ADD | .SUB | .MUL | .DIV | .MOD | .CMP_EQ | .CMP_NE
  | .CMP_LT | .CMP_GT | .CMP_LE | .CMP_GE => 1 ≤ d (j + 1) ∧ d j = d (j + 1) + 1
  | .JMP => ∃ t : Nat, inst.operand = some (Int.ofNat t)
      ∧ off ≤ t ∧ t ≤ off + len ∧ d (t - off) = d j
  | .JMP_IF_FALSE => ∃ t : Nat, inst.operand = some (Int.ofNat t)
      ∧ off ≤ t ∧ t ≤ off + len ∧ d j = d (t - off) + 1 ∧ d (j + 1) = d (t - off)
  | .HALT => False

/-- A jump-free expression segment: some depth map takes 0 to 1 across it and
types every instruction. -/
def ExprCode (δ : List Instruction) : Prop :=
  ∃ d : Nat → Nat, d 0 = 0 ∧ d δ.length = 1 ∧
    ∀ j inst, δ.get? j = some inst → exprInstrOK d j inst

/-- A statement segment at absolute offset `off`: some depth map takes 0 to 0
across it and types every instruction, with jumps staying inside the segment
(possibly to its one-past-the-end boundary). -/
def StmtCode (off : Nat) (δ : List Instruction) : Prop :=
  ∃ d : Nat → Nat, d 0 = 0 ∧ d δ.length = 0 ∧
    ∀ j inst, δ.get? j = some inst → stmtInstrOK off δ.length d j inst

/-- Expression typing transports along a depth map that agrees up to a
constant shift `k` on a window placed at relative position `base`. -/
theorem exprInstrOK_shift (len2 k base : Nat) (d1 d2 : Nat → Nat) (j : Nat)
    (inst : Instruction)
    (hagree : ∀ i, i ≤ len2 → d2 (base + i) = k + d1 i)
    (hj : j ≤ len2) (hj1 : j + 1 ≤ len2)
    (h : exprInstrOK d1 j inst) : exprInstrOK d2 (base + j) inst := by
  obtain ⟨op, oper, com⟩ := inst
  have e0 := hagree j hj
  have e1 := hagree (j + 1) hj1
  cases op <;> dsimp only [exprInstrOK] at h ⊢ <;>
    first
      | exact h.elim
      | (obtain ⟨ha, hb⟩ := h
         first
           | exact ⟨ha, by rw [Nat.add_assoc, e1, e0]; omega⟩
           | exact ⟨by rw [Nat.add_assoc, e1]; omega, by rw [Nat.add_assoc, e1, e0]; omega⟩)

/-- Expression typing transports to an equal depth map at the same position. -/
theorem exprInstrOK_congr (d1 d2 : Nat → Nat) (j : Nat) (inst : Instruction)
    (h0 : d2 j = d1 j) (h1 : d2 (j + 1) = d1 (j + 1))
    (h : exprInstrOK d1 j inst) : exprInstrOK d2 j inst := by
  obtain ⟨op, oper, com⟩ := inst
  cases op <;> dsimp only [exprInstrOK] at h ⊢ <;>
    first
      | exact h.elim
      | (obtain ⟨ha, hb⟩ := h
         first
           | exact ⟨ha, by rw [h1, h0]; omega⟩
           | exact ⟨by rw [h1]; omega, by rw [h1, h0]; omega⟩)

/-- An expression segment embedded at relative position `base` inside a
statement segment is statement-typed there (it has no jumps). -/
theorem exprInstrOK_embed (off len len2 base : Nat) (d1 d2 : Nat → Nat) (j : Nat)
    (inst : Instruction)
    (hagree : ∀ i, i ≤ len2 → d2 (base + i) = d1 i)
    (hj : j ≤ len2) (hj1 : j + 1 ≤ len2)
    (h : exprInstrOK d1 j inst) : stmtInstrOK off len d2 (base + j) inst := by
  obtain ⟨op, oper, com⟩ := inst
  have e0 := hagree j hj
  have e1 := hagree (j + 1) hj1
  cases op <;> dsimp only [exprInstrOK] at h <;> dsimp only [stmtInstrOK] <;>
    first
      | exact h.elim
      | (obtain ⟨ha, hb⟩ := h
         first
           | exact ⟨ha, by rw [Nat.add_assoc, e1, e0]; omega⟩
           | exact ⟨by rw [Nat.add_assoc, e1]; omega, by rw [Nat.add_assoc, e1, e0]; omega⟩)

/-- Statement typing transports from a sub-segment at relative position `base`
(absolute offset `off + base`) into an enclosing segment of length `len`. -/
theorem stmtInstrOK_embed (off base len len2 : Nat) (d1 d2 : Nat → Nat) (j : Nat)
    (inst : Instruction)
    (hagree : ∀ i, i ≤ len2 → d2 (base + i) = d1 i)
    (hlen : base + len2 ≤ len)
    (hj : j ≤ len2) (hj1 : j + 1 ≤ len2)
    (h : stmtInstrOK (off + base) len2 d1 j inst) :
    stmtInstrOK off len d2 (base + j) inst := by
  obtain ⟨op, oper, com⟩ := inst
  have e0 := hagree j hj
  have e1 := hagree (j + 1) hj1
  cases op <;> dsimp only [stmtInstrOK] at h ⊢
  case PUSH_INT => exact ⟨h.1, by rw [Nat.add_assoc, e1, e0, h.2]⟩
  case LOAD => exact ⟨h.1, by rw [Nat.add_assoc, e1, e0, h.2]⟩
  case STORE => exact ⟨h.1, by rw [Nat.add_assoc, e1, e0, h.2]⟩
  case PRINT => rw [Nat.add_assoc, e1, e0, h]
  case JMP =>
    obtain ⟨t, ho, h1, h2, h3⟩ := h
    refine ⟨t, ho, by omega, by omega, ?_⟩
    have ht : t - off = base + (t - (off + base)) := by omega
    rw [ht, hagree (t - (off + base)) (by omega), h3]
    exact e0.symm
  case JMP_IF_FALSE =>
    obtain ⟨t, ho, h1, h2, h3, h4⟩ := h
    have ht : t - off = base + (t - (off + base)) := by omega
    refine ⟨t, ho, by omega, by omega, ?_, ?_⟩
    · rw [e0, ht, hagree (t - (off + base)) (by omega)]
      exact h3
    · rw [Nat.add_assoc, e1, ht, hagree (t - (off + base)) (by omega)]
      exact h4
  all_goals
    obtain ⟨ha, hb⟩ := h
    exact ⟨by rw [Nat.add_assoc, e1]; omega, by rw [Nat.add_assoc, e1, e0, hb]⟩

/-- Statement typing is preserved when the enclosing length grows and the
depth map agrees on the segment (same offset). -/
theorem stmtInstrOK_grow (off len len2 : Nat) (d1 d2 : Nat → Nat) (j : Nat)
    (inst : Instruction)
    (hagree : ∀ i, i ≤ len2 → d2 i = d1 i)
    (hlen : len2 ≤ len)
    (hj : j ≤ len2) (hj1 : j + 1 ≤ len2)
    (h : stmtInstrOK off len2 d1 j inst) : stmtInstrOK off len d2 j inst := by
  have h' : stmtInstrOK (off + 0) len2 d1 j inst := by rwa [Nat.add_zero]
  have hres := stmtInstrOK_embed off 0 len len2 d1 d2 j inst
    (by intro i hi; rw [Nat.zero_add]; exact hagree i hi) (by omega) hj hj1 h'
  rwa [Nat.zero_add] at hres

/-- The binary opcodes (emitted by `visitBinaryExpr`). -/
def isBinaryOpc : OpCode → Bool
  | .ADD | .SUB | .MUL | .DIV | .MOD | .CMP_EQ | .CMP_NE
  | .CMP_LT | .CMP_GT | .CMP_LE | .CMP_GE => true
  | _ => false

/-- A binary opcode is expression-typed whenever the depth drops by one
through it and stays positive. -/
theorem exprInstrOK_of_binary (d : Nat → Nat) (j : Nat) (x : Instruction)
    (hb : isBinaryOpc x.op = true) (h1 : 1 ≤ d (j + 1)) (h2 : d j = d (j + 1) + 1) :
    exprInstrOK d j x := by
  obtain ⟨op, oper, com⟩ := x
  cases op <;> first
    | exact Bool.noConfusion hb
    | exact ⟨h1, h2⟩

/-- The depth map of a one-instruction push segment. -/
def dPush (j : Nat) : Nat := if j = 0 then 0 else 1

/-- A single `PUSH_INT` or `LOAD` with a present operand is an expression
segment. -/
theorem ExprCode_push (x : Instruction) (hop : x.op = .PUSH_INT ∨ x.op = .LOAD)
    (ho : x.operand.isSome) : ExprCode [x] := by
  refine ⟨dPush, rfl, rfl, ?_⟩
  intro j inst hj
  cases j with
  | zero =>
    injection hj with hj
    subst hj
    rcases hop with hop | hop <;>
      · dsimp only [exprInstrOK]
        rw [hop]
        exact ⟨ho, rfl⟩
  | succ n => exact Option.noConfusion hj

/-- The depth map of the segment `left-code ++ right-code ++ [binary op]`. -/
def dBinary (L R : Nat) (dl dr : Nat → Nat) (j : Nat) : Nat :=
  if j < L then dl j else if j ≤ L + R then 1 + dr (j - L) else 1

/-- `visitBinaryExpr` output is an expression segment. -/
theorem ExprCode_binary (δl δr : List Instruction) (x : Instruction)
    (hb : isBinaryOpc x.op = true)
    (hl : ExprCode δl) (hr : ExprCode δr) : ExprCode (δl ++ (δr ++ [x])) := by
  obtain ⟨dl, hl0, hlE, hlOK⟩ := hl
  obtain ⟨dr, hr0, hrE, hrOK⟩ := hr
  have hLpos : 0 < δl.length := by
    rcases Nat.eq_zero_or_pos δl.length with h0 | h0
    · rw [h0] at hlE
      rw [hl0] at hlE
      exact absurd hlE (by decide)
    · exact h0
  have hlen : (δl ++ (δr ++ [x])).length = δl.length + (δr.length + 1) := by
    simp [List.length_append]
  refine ⟨dBinary δl.length δr.length dl dr, ?_, ?_, ?_⟩
  · dsimp only [dBinary]
    rw [if_pos hLpos]
    exact hl0
  · rw [hlen]
    dsimp only [dBinary]
    rw [if_neg (by omega), if_neg (by omega)]
  · intro j inst hj
    have hagreeL : ∀ i, i ≤ δl.length → dBinary δl.length δr.length dl dr i = dl i := by
      intro i hi
      dsimp only [dBinary]
      by_cases hiL : i < δl.length
      · rw [if_pos hiL]
      · have hieq : i = δl.length := by omega
        subst hieq
        rw [if_neg (by omega), if_pos (by omega), Nat.sub_self, hr0, hlE]
    have hagreeR : ∀ i, i ≤ δr.length →
        dBinary δl.length δr.length dl dr (δl.length + i) = 1 + dr i := by
      intro i hi
      dsimp only [dBinary]
      rw [if_neg (by omega), if_pos (by omega), Nat.add_sub_cancel_left]
    by_cases hjl : j < δl.length
    · rw [List.get?_append hjl] at hj
      exact exprInstrOK_congr dl (dBinary δl.length δr.length dl dr) j inst
        (hagreeL j (by omega)) (hagreeL (j + 1) (by omega)) (hlOK j inst hj)
    · by_cases hjr : j < δl.length + δr.length
      · have hj' : j = δl.length + (j - δl.length) := by omega
        rw [hj', get_append_right_len] at hj
        rw [List.get?_append (by omega)] at hj
        have hOK := hrOK (j - δl.length) inst hj
        have hres := exprInstrOK_shift δr.length 1 δl.length dr
          (dBinary δl.length δr.length dl dr) (j - δl.length) inst hagreeR
          (by omega) (by omega) hOK
        rw [hj']
        exact hres
      · have hjtot : j < δl.length + (δr.length + 1) := by
          obtain ⟨hlt, _⟩ := List.get?_eq_some.mp hj
          rw [hlen] at hlt
          exact hlt
        have hjeq : j = δl.length + δr.length := by omega
        subst hjeq
        have hx : (δl ++ (δr ++ [x])).get? (δl.length + δr.length) = some x := by
          rw [get_append_right_len]
          have h2 : (δr ++ [x]).get? (δr.length + 0) = [x].get? 0 :=
            get_append_right_len δr [x] 0
          rw [Nat.add_zero] at h2
          rw [h2]
          rfl
        rw [hx] at hj
        injection hj with hj
        subst hj
        apply exprInstrOK_of_binary _ _ _ hb
        · dsimp only [dBinary]
          rw [if_neg (by omega), if_neg (by omega)]
        · dsimp only [dBinary]
          rw [if_neg (by omega), if_pos (by omega), if_neg (by omega), if_neg (by omega),
            Nat.add_sub_cancel_left, hrE]


/-- The empty statement segment. -/
theorem StmtCode_nil (off : Nat) : StmtCode off [] := by
  refine ⟨fun _ => 0, rfl, rfl, ?_⟩
  intro j inst hj
  exact Option.noConfusion hj

/-- An expression segment embedded with the same base depth and the enclosing
statement frame (wrapper of `exprInstrOK_embed` at relative position 0). -/
theorem exprInstrOK_embed0 (off len len2 : Nat) (d1 d2 : Nat → Nat) (j : Nat)
    (inst : Instruction)
    (hagree : ∀ i, i ≤ len2 → d2 i = d1 i)
    (hj : j ≤ len2) (hj1 : j + 1 ≤ len2)
    (h : exprInstrOK d1 j inst) : stmtInstrOK off len d2 j inst := by
  have hres := exprInstrOK_embed off len len2 0 d1 d2 j inst
    (by intro i hi; rw [Nat.zero_add]; exact hagree i hi) hj hj1 h
  rwa [Nat.zero_add] at hres

/-- The depth map of two consecutive statement segments. -/
def dSeq (L : Nat) (d1 d2 : Nat → Nat) (j : Nat) : Nat :=
  if j < L then d1 j else d2 (j - L)

/-- Consecutive statement segments compose. -/
theorem StmtCode_append (off : Nat) (δ1 δ2 : List Instruction)
    (h1 : StmtCode off δ1) (h2 : StmtCode (off + δ1.length) δ2) :
    StmtCode off (δ1 ++ δ2) := by
  obtain ⟨d1, h10, h1E, h1OK⟩ := h1
  obtain ⟨d2, h20, h2E, h2OK⟩ := h2
  have hlen : (δ1 ++ δ2).length = δ1.length + δ2.length := by
    simp [List.length_append]
  have hagree1 : ∀ i, i ≤ δ1.length → dSeq δ1.length d1 d2 i = d1 i := by
    intro i hi
    dsimp only [dSeq]
    by_cases hiL : i < δ1.length
    · rw [if_pos hiL]
    · have hieq : i = δ1.length := by omega
      subst hieq
      rw [if_neg (by omega), Nat.sub_self, h20, h1E]
  have hagree2 : ∀ i, i ≤ δ2.length → dSeq δ1.length d1 d2 (δ1.length + i) = d2 i := by
    intro i hi
    dsimp only [dSeq]
    rw [if_neg (by omega), Nat.add_sub_cancel_left]
  refine ⟨dSeq δ1.length d1 d2, ?_, ?_, ?_⟩
  · rw [hagree1 0 (by omega)]
    exact h10
  · rw [hlen, hagree2 δ2.length (by omega)]
    exact h2E
  · rw [hlen]
    intro j inst hj
    have hjlen : j < δ1.length + δ2.length := by
      obtain ⟨hlt, _⟩ := List.get?_eq_some.mp hj
      rw [hlen] at hlt
      exact hlt
    by_cases hjl : j < δ1.length
    · rw [List.get?_append hjl] at hj
      exact stmtInstrOK_grow off (δ1.length + δ2.length) δ1.length d1
        (dSeq δ1.length d1 d2) j inst hagree1 (by omega) (by omega) (by omega)
        (h1OK j inst hj)
    · have hj' : j = δ1.length + (j - δ1.length) := by omega
      rw [hj', get_append_right_len] at hj
      have hres := stmtInstrOK_embed off δ1.length (δ1.length + δ2.length) δ2.length d2
        (dSeq δ1.length d1 d2) (j - δ1.length) inst hagree2 (by omega)
        (by omega) (by omega) (h2OK (j - δ1.length) inst hj)
      rw [hj']
      exact hres

/-- The depth map of `expression-code ++ [popper]`. -/
def dExprPop (L : Nat) (de : Nat → Nat) (j : Nat) : Nat :=
  if j ≤ L then de j else 0

/-- An expression followed by a single popping instruction (`PRINT`, or a
`STORE` with a present operand) is a statement segment (`visitPrint`,
`visitAssign`). -/
theorem StmtCode_expr_pop (off : Nat) (δe : List Instruction) (x : Instruction)
    (he : ExprCode δe)
    (hx : x.op = .PRINT ∨ (x.op = .STORE ∧ x.operand.isSome)) :
    StmtCode off (δe ++ [x]) := by
  obtain ⟨de, he0, heE, heOK⟩ := he
  have hlen : (δe ++ [x]).length = δe.length + 1 := by
    simp [List.length_append]
  have hagree : ∀ i, i ≤ δe.length → dExprPop δe.length de i = de i := by
    intro i hi
    dsimp only [dExprPop]
    rw [if_pos hi]
  refine ⟨dExprPop δe.length de, ?_, ?_, ?_⟩
  · rw [hagree 0 (by omega)]
    exact he0
  · rw [hlen]
    dsimp only [dExprPop]
    rw [if_neg (by omega)]
  · rw [hlen]
    intro j inst hj
    have hjlen : j < δe.length + 1 := by
      obtain ⟨hlt, _⟩ := List.get?_eq_some.mp hj
      rw [hlen] at hlt
      exact hlt
    by_cases hjl : j < δe.length
    · rw [List.get?_append hjl] at hj
      exact exprInstrOK_embed0 off (δe.length + 1) δe.length de
        (dExprPop δe.length de) j inst hagree (by omega) (by omega) (heOK j inst hj)
    · have hjeq : j = δe.length := by omega
      subst hjeq
      have hx0 : (δe ++ [x]).get? δe.length = some x := by
        have h2 : (δe ++ [x]).get? (δe.length + 0) = [x].get? 0 :=
          get_append_right_len δe [x] 0
        rw [Nat.add_zero] at h2
        rw [h2]
        rfl
      rw [hx0] at hj
      injection hj with hj
      subst hj
      have hd0 : dExprPop δe.length de δe.length = 1 := by
        dsimp only [dExprPop]
        rw [if_pos (by omega)]
        exact heE
      have hd1 : dExprPop δe.length de (δe.length + 1) = 0 := by
        dsimp only [dExprPop]
        rw [if_neg (by omega)]
      rcases hx with hop | ⟨hop, hoper⟩
      · dsimp only [stmtInstrOK]
        rw [hop, hd0, hd1]
      · dsimp only [stmtInstrOK]
        rw [hop]
        exact ⟨hoper, by rw [hd0, hd1]⟩

/-- The depth map of `cond-code ++ JMP_IF_FALSE :: then-code`. -/
def dGuard (Lc : Nat) (dc dt : Nat → Nat) (j : Nat) : Nat :=
  if j ≤ Lc then dc j else dt (j - (Lc + 1))

/-- `visitIf` output without an else branch is a statement segment. -/
theorem StmtCode_if_none (off : Nat) (δc δt : List Instruction)
    (hc : ExprCode δc) (ht : StmtCode (off + (δc.length + 1)) δt) :
    StmtCode off (δc ++ ⟨.JMP_IF_FALSE,
      some (Int.ofNat (off + (δc.length + (δt.length + 1)))), none⟩ :: δt) := by
  obtain ⟨dc, hc0, hcE, hcOK⟩ := hc
  obtain ⟨dt, ht0, htE, htOK⟩ := ht
  have hlen : (δc ++ ⟨.JMP_IF_FALSE,
      some (Int.ofNat (off + (δc.length + (δt.length + 1)))), none⟩ :: δt).length
      = δc.length + (δt.length + 1) := by
    simp [List.length_append]
  have hagreeC : ∀ i, i ≤ δc.length → dGuard δc.length dc dt i = dc i := by
    intro i hi
    dsimp only [dGuard]
    rw [if_pos hi]
  have hagreeT : ∀ i, i ≤ δt.length → dGuard δc.length dc dt (δc.length + 1 + i) = dt i := by
    intro i hi
    dsimp only [dGuard]
    rw [if_neg (by omega)]
    congr 1
    omega
  refine ⟨dGuard δc.length dc dt, ?_, ?_, ?_⟩
  · rw [hagreeC 0 (by omega)]
    exact hc0
  · rw [hlen]
    dsimp only [dGuard]
    rw [if_neg (by omega)]
    have harith : δc.length + (δt.length + 1) - (δc.length + 1) = δt.length := by omega
    rw [harith]
    exact htE
  · rw [hlen]
    intro j inst hj
    have hjlen : j < δc.length + (δt.length + 1) := by
      obtain ⟨hlt, _⟩ := List.get?_eq_some.mp hj
      rw [hlen] at hlt
      exact hlt
    by_cases hjc : j < δc.length
    · rw [List.get?_append hjc] at hj
      exact exprInstrOK_embed0 off (δc.length + (δt.length + 1)) δc.length dc
        (dGuard δc.length dc dt) j inst hagreeC (by omega) (by omega) (hcOK j inst hj)
    · by_cases hjx : j = δc.length
      · subst hjx
        have hx0 := get_append_self δc (⟨.JMP_IF_FALSE,
          some (Int.ofNat (off + (δc.length + (δt.length + 1)))), none⟩ : Instruction) δt
        rw [hx0] at hj
        injection hj with hj
        subst hj
        dsimp only [stmtInstrOK]
        refine ⟨off + (δc.length + (δt.length + 1)), rfl, by omega, by omega, ?_, ?_⟩
        · have harith : off + (δc.length + (δt.length + 1)) - off
              = δc.length + (δt.length + 1) := by omega
          rw [harith]
          dsimp only [dGuard]
          rw [if_pos (le_refl _), if_neg (by omega)]
          have harith2 : δc.length + (δt.length + 1) - (δc.length + 1) = δt.length := by omega
          rw [harith2, hcE, htE]
        · have harith : off + (δc.length + (δt.length + 1)) - off
              = δc.length + (δt.length + 1) := by omega
          rw [harith]
          dsimp only [dGuard]
          rw [if_neg (by omega), if_neg (by omega)]
          have harith2 : δc.length + (δt.length + 1) - (δc.length + 1) = δt.length := by omega
          have harith3 : δc.length + 1 - (δc.length + 1) = 0 := by omega
          rw [harith2, harith3, ht0, htE]
      · have hj1 : j = δc.length + (j - δc.length) := by omega
        rw [hj1, get_append_right_len] at hj
        have hj2 : j - δc.length = (j - (δc.length + 1)) + 1 := by omega
        rw [hj2, List.get?_cons_succ] at hj
        have hres := stmtInstrOK_embed off (δc.length + 1) (δc.length + (δt.length + 1))
          δt.length dt (dGuard δc.length dc dt) (j - (δc.length + 1)) inst hagreeT
          (by omega) (by omega) (by omega) (htOK (j - (δc.length + 1)) inst hj)
        have hj3 : j = (δc.length + 1) + (j - (δc.length + 1)) := by omega
        rw [hj3]
        exact hres


/-- The depth map of `cond-code ++ JMP_IF_FALSE :: (body-code ++ [JMP back])`. -/
def dWhile (Lc Lb : Nat) (dc db : Nat → Nat) (j : Nat) : Nat :=
  if j ≤ Lc then dc j else if j ≤ Lc + 1 + Lb then db (j - (Lc + 1)) else 0

/-- `visitWhile` output is a statement segment. -/
theorem StmtCode_while (off : Nat) (δc δb : List Instruction)
    (hc : ExprCode δc) (hb : StmtCode (off + (δc.length + 1)) δb) :
    StmtCode off (δc ++ (⟨.JMP_IF_FALSE,
        some (Int.ofNat (off + (δc.length + (δb.length + 1 + 1)))), none⟩ : Instruction)
      :: (δb ++ [(⟨.JMP, some (Int.ofNat off), none⟩ : Instruction)])) := by
  obtain ⟨dc, hc0, hcE, hcOK⟩ := hc
  obtain ⟨db, hb0, hbE, hbOK⟩ := hb
  have hlen : (δc ++ (⟨.JMP_IF_FALSE,
        some (Int.ofNat (off + (δc.length + (δb.length + 1 + 1)))), none⟩ : Instruction)
      :: (δb ++ [(⟨.JMP, some (Int.ofNat off), none⟩ : Instruction)])).length
      = δc.length + (δb.length + 1 + 1) := by
    simp [List.length_append]
  have hagreeC : ∀ i, i ≤ δc.length → dWhile δc.length δb.length dc db i = dc i := by
    intro i hi
    dsimp only [dWhile]
    rw [if_pos hi]
  have hagreeB : ∀ i, i ≤ δb.length →
      dWhile δc.length δb.length dc db (δc.length + 1 + i) = db i := by
    intro i hi
    dsimp only [dWhile]
    rw [if_neg (by omega), if_pos (by omega)]
    congr 1
    omega
  refine ⟨dWhile δc.length δb.length dc db, ?_, ?_, ?_⟩
  · rw [hagreeC 0 (by omega)]
    exact hc0
  · rw [hlen]
    dsimp only [dWhile]
    rw [if_neg (by omega), if_neg (by omega)]
  · rw [hlen]
    intro j inst hj
    have hjlen : j < δc.length + (δb.length + 1 + 1) := by
      obtain ⟨hlt, _⟩ := List.get?_eq_some.mp hj
      rw [hlen] at hlt
      exact hlt
    by_cases hjc : j < δc.length
    · rw [List.get?_append hjc] at hj
      exact exprInstrOK_embed0 off (δc.length + (δb.length + 1 + 1)) δc.length dc
        (dWhile δc.length δb.length dc db) j inst hagreeC (by omega) (by omega)
        (hcOK j inst hj)
    · by_cases hjx : j = δc.length
      · subst hjx
        have hx0 := get_append_self δc (⟨.JMP_IF_FALSE,
          some (Int.ofNat (off + (δc.length + (δb.length + 1 + 1)))), none⟩ : Instruction)
          (δb ++ [⟨.JMP, some (Int.ofNat off), none⟩])
        rw [hx0] at hj
        injection hj with hj
        subst hj
        dsimp only [stmtInstrOK]
        refine ⟨off + (δc.length + (δb.length + 1 + 1)), rfl, by omega, by omega, ?_, ?_⟩
        · have harith : off + (δc.length + (δb.length + 1 + 1)) - off
              = δc.length + (δb.length + 1 + 1) := by omega
          rw [harith]
          dsimp only [dWhile]
          rw [if_pos (le_refl _), if_neg (by omega), if_neg (by omega), hcE]
        · have harith : off + (δc.length + (δb.length + 1 + 1)) - off
              = δc.length + (δb.length + 1 + 1) := by omega
          rw [harith]
          dsimp only [dWhile]
          rw [if_neg (by omega), if_pos (by omega), if_neg (by omega), if_neg (by omega)]
          have harith2 : δc.length + 1 - (δc.length + 1) = 0 := by omega
          rw [harith2]
          exact hb0
      · by_cases hjb : j < δc.length + 1 + δb.length
        · have hj1 : j = δc.length + (j - δc.length) := by omega
          rw [hj1, get_append_right_len] at hj
          have hj2 : j - δc.length = (j - (δc.length + 1)) + 1 := by omega
          rw [hj2, List.get?_cons_succ] at hj
          rw [List.get?_append (by omega)] at hj
          have hres := stmtInstrOK_embed off (δc.length + 1)
            (δc.length + (δb.length + 1 + 1)) δb.length db
            (dWhile δc.length δb.length dc db) (j - (δc.length + 1)) inst hagreeB
            (by omega) (by omega) (by omega) (hbOK (j - (δc.length + 1)) inst hj)
          have hj3 : j = (δc.length + 1) + (j - (δc.length + 1)) := by omega
          rw [hj3]
          exact hres
        · have hjeq : j = δc.length + 1 + δb.length := by omega
          have hj1 : j = δc.length + (j - δc.length) := by omega
          rw [hj1, get_append_right_len] at hj
          have hj2 : j - δc.length = (j - (δc.length + 1)) + 1 := by omega
          rw [hj2, List.get?_cons_succ] at hj
          have hj4 : j - (δc.length + 1) = δb.length := by omega
          rw [hj4] at hj
          have hx1 := get_append_self δb (⟨.JMP, some (Int.ofNat off), none⟩ : Instruction) []
          rw [hx1] at hj
          injection hj with hj
          subst hj
          dsimp only [stmtInstrOK]
          refine ⟨off, rfl, by omega, by omega, ?_⟩
          have harith0 : off - off = 0 := by omega
          rw [harith0, hagreeC 0 (by omega), hc0, hjeq]
          dsimp only [dWhile]
          rw [if_neg (by omega), if_pos (by omega)]
          have harith2 : δc.length + 1 + δb.length - (δc.length + 1) = δb.length := by omega
          rw [harith2, hbE]

/-- The depth map of
`cond-code ++ JMP_IF_FALSE :: (then-code ++ JMP :: else-code)`. -/
def dIfElse (Lc Lt : Nat) (dc dt de : Nat → Nat) (j : Nat) : Nat :=
  if j ≤ Lc then dc j else if j ≤ Lc + 1 + Lt then dt (j - (Lc + 1))
  else de (j - (Lc + Lt + 2))

/-- `visitIf` output with an else branch is a statement segment. -/
theorem StmtCode_if_else (off : Nat) (δc δt δe : List Instruction)
    (hc : ExprCode δc) (ht : StmtCode (off + (δc.length + 1)) δt)
    (he : StmtCode (off + (δc.length + (δt.length + 1 + 1))) δe) :
    StmtCode off (δc ++ (⟨.JMP_IF_FALSE,
        some (Int.ofNat (off + (δc.length + (δt.length + 1 + 1)))), none⟩ : Instruction)
      :: (δt ++ (⟨.JMP,
        some (Int.ofNat (off + (δc.length + (δt.length + (δe.length + 1) + 1)))),
        none⟩ : Instruction)
      :: δe)) := by
  obtain ⟨dc, hc0, hcE, hcOK⟩ := hc
  obtain ⟨dt, ht0, htE, htOK⟩ := ht
  obtain ⟨de, he0, heE, heOK⟩ := he
  have hlen : (δc ++ (⟨.JMP_IF_FALSE,
        some (Int.ofNat (off + (δc.length + (δt.length + 1 + 1)))), none⟩ : Instruction)
      :: (δt ++ (⟨.JMP,
        some (Int.ofNat (off + (δc.length + (δt.length + (δe.length + 1) + 1)))),
        none⟩ : Instruction)
      :: δe)).length = δc.length + (δt.length + (δe.length + 1) + 1) := by
    simp [List.length_append]
  have hagreeC : ∀ i, i ≤ δc.length →
      dIfElse δc.length δt.length dc dt de i = dc i := by
    intro i hi
    dsimp only [dIfElse]
    rw [if_pos hi]
  have hagreeT : ∀ i, i ≤ δt.length →
      dIfElse δc.length δt.length dc dt de (δc.length + 1 + i) = dt i := by
    intro i hi
    dsimp only [dIfElse]
    rw [if_neg (by omega), if_pos (by omega)]
    congr 1
    omega
  have hagreeE : ∀ i, i ≤ δe.length →
      dIfElse δc.length δt.length dc dt de (δc.length + (δt.length + 1 + 1) + i) = de i := by
    intro i hi
    dsimp only [dIfElse]
    rw [if_neg (by omega), if_neg (by omega)]
    congr 1
    omega
  refine ⟨dIfElse δc.length δt.length dc dt de, ?_, ?_, ?_⟩
  · rw [hagreeC 0 (by omega)]
    exact hc0
  · rw [hlen]
    have harith : δc.length + (δt.length + (δe.length + 1) + 1)
        = δc.length + (δt.length + 1 + 1) + δe.length := by omega
    rw [harith, hagreeE δe.length (by omega)]
    exact heE
  · rw [hlen]
    intro j inst hj
    have hjlen : j < δc.length + (δt.length + (δe.length + 1) + 1) := by
      obtain ⟨hlt, _⟩ := List.get?_eq_some.mp hj
      rw [hlen] at hlt
      exact hlt
    by_cases hjc : j < δc.length
    · rw [List.get?_append hjc] at hj
      exact exprInstrOK_embed0 off (δc.length + (δt.length + (δe.length + 1) + 1))
        δc.length dc (dIfElse δc.length δt.length dc dt de) j inst hagreeC
        (by omega) (by omega) (hcOK j inst hj)
    · by_cases hjx : j = δc.length
      · subst hjx
        have hx0 := get_append_self δc (⟨.JMP_IF_FALSE,
          some (Int.ofNat (off + (δc.length + (δt.length + 1 + 1)))), none⟩ : Instruction)
          (δt ++ ⟨.JMP,
            some (Int.ofNat (off + (δc.length + (δt.length + (δe.length + 1) + 1)))), none⟩
          :: δe)
        rw [hx0] at hj
        injection hj with hj
        subst hj
        dsimp only [stmtInstrOK]
        refine ⟨off + (δc.length + (δt.length + 1 + 1)), rfl, by omega, by omega, ?_, ?_⟩
        · have harith : off + (δc.length + (δt.length + 1 + 1)) - off
              = δc.length + (δt.length + 1 + 1) + 0 := by omega
          rw [harith, hagreeE 0 (by omega), he0, hagreeC δc.length (by omega), hcE]
        · have harith : off + (δc.length + (δt.length + 1 + 1)) - off
              = δc.length + (δt.length + 1 + 1) + 0 := by omega
          rw [harith, hagreeE 0 (by omega), he0]
          have harith2 : δc.length + 1 = δc.length + 1 + 0 := by omega
          rw [harith2, hagreeT 0 (by omega)]
          exact ht0
      · by_cases hjt : j < δc.length + 1 + δt.length
        · have hj1 : j = δc.length + (j - δc.length) := by omega
          rw [hj1, get_append_right_len] at hj
          have hj2 : j - δc.length = (j - (δc.length + 1)) + 1 := by omega
          rw [hj2, List.get?_cons_succ] at hj
          rw [List.get?_append (by omega)] at hj
          have hres := stmtInstrOK_embed off (δc.length + 1)
            (δc.length + (δt.length + (δe.length + 1) + 1)) δt.length dt
            (dIfElse δc.length δt.length dc dt de) (j - (δc.length + 1)) inst hagreeT
            (by omega) (by omega) (by omega) (htOK (j - (δc.length + 1)) inst hj)
          have hj3 : j = (δc.length + 1) + (j - (δc.length + 1)) := by omega
          rw [hj3]
          exact hres
        · by_cases hjm : j = δc.length + 1 + δt.length
          · have hj1 : j = δc.length + (j - δc.length) := by omega
            rw [hj1, get_append_right_len] at hj
            have hj2 : j - δc.length = (j - (δc.length + 1)) + 1 := by omega
            rw [hj2, List.get?_cons_succ] at hj
            have hj4 : j - (δc.length + 1) = δt.length := by omega
            rw [hj4] at hj
            have hx1 := get_append_self δt (⟨.JMP,
              some (Int.ofNat (off + (δc.length + (δt.length + (δe.length + 1) + 1)))),
              none⟩ : Instruction) δe
            rw [hx1] at hj
            injection hj with hj
            subst hj
            dsimp only [stmtInstrOK]
            refine ⟨off + (δc.length + (δt.length + (δe.length + 1) + 1)), rfl,
              by omega, by omega, ?_⟩
            have harith : off + (δc.length + (δt.length + (δe.length + 1) + 1)) - off
                = δc.length + (δt.length + 1 + 1) + δe.length := by omega
            rw [harith, hagreeE δe.length (by omega), heE, hjm]
            have harith2 : δc.length + 1 + δt.length = δc.length + 1 + δt.length := rfl
            dsimp only [dIfElse]
            rw [if_neg (by omega), if_pos (by omega)]
            have harith3 : δc.length + 1 + δt.length - (δc.length + 1) = δt.length := by omega
            rw [harith3, htE]
          · have hj1 : j = δc.length + (j - δc.length) := by omega
            rw [hj1, get_append_right_len] at hj
            have hj2 : j - δc.length = (j - (δc.length + 1)) + 1 := by omega
            rw [hj2, List.get?_cons_succ] at hj
            have hj5 : j - (δc.length + 1) = δt.length + (j - (δc.length + 1) - δt.length)
                := by omega
            rw [hj5, get_append_right_len] at hj
            have hj6 : j - (δc.length + 1) - δt.length
                = (j - (δc.length + (δt.length + 1 + 1))) + 1 := by omega
            rw [hj6, List.get?_cons_succ] at hj
            have hres := stmtInstrOK_embed off (δc.length + (δt.length + 1 + 1))
              (δc.length + (δt.length + (δe.length + 1) + 1)) δe.length de
              (dIfElse δc.length δt.length dc dt de)
              (j - (δc.length + (δt.length + 1 + 1))) inst hagreeE
              (by omega) (by omega) (by omega)
              (heOK (j - (δc.length + (δt.length + 1 + 1))) inst hj)
            have hj7 : j = (δc.length + (δt.length + 1 + 1))
                + (j - (δc.length + (δt.length + 1 + 1))) := by omega
            rw [hj7]
            exact hres


/-- Every map-keyed node of a statement list has a slot in `m`. -/
def ResolvedList (m : List (Nat × Nat)) (l : List ASTNode) : Prop :=
  ∀ k ∈ collectIdsList l, (lookupSlot m k).isSome

/-- Resolvedness of a declaration gives its slot. -/
theorem Resolved_varDecl {m : List (Nat × Nat)} {nid : Nat} {name : Token}
    (h : Resolved m (.varDecl nid name)) : (lookupSlot m nid).isSome :=
  h nid (by simp [collectIds])

/-- Resolvedness of an assignment gives its slot and the expression's. -/
theorem Resolved_assign {m : List (Nat × Nat)} {nid : Nat} {name : Token} {e : ASTNode}
    (h : Resolved m (.assign nid name e)) :
    (lookupSlot m nid).isSome ∧ Resolved m e := by
  refine ⟨h nid (by simp [collectIds]), ?_⟩
  intro k hk
  refine h k ?_
  simp only [collectIds, List.mem_cons]
  exact Or.inr hk

/-- Resolvedness of a print statement passes to its expression. -/
theorem Resolved_print {m : List (Nat × Nat)} {e : ASTNode}
    (h : Resolved m (.printStmt e)) : Resolved m e := by
  intro k hk
  exact h k hk

/-- Resolvedness of a block passes to its statements. -/
theorem Resolved_block {m : List (Nat × Nat)} {stmts : List ASTNode}
    (h : Resolved m (.block stmts)) : ResolvedList m stmts := by
  intro k hk
  exact h k hk

/-- Resolvedness of a program passes to its statements. -/
theorem Resolved_program {m : List (Nat × Nat)} {stmts : List ASTNode}
    (h : Resolved m (.program stmts)) : ResolvedList m stmts := by
  intro k hk
  exact h k hk

/-- Resolvedness of an if statement passes to its parts. -/
theorem Resolved_if {m : List (Nat × Nat)} {c t : ASTNode} {eo : Option ASTNode}
    (h : Resolved m (.ifStmt c t eo)) :
    Resolved m c ∧ Resolved m t ∧ ∀ e, eo = some e → Resolved m e := by
  refine ⟨?_, ?_, ?_⟩
  · intro k hk
    refine h k ?_
    cases eo <;> simp only [collectIds, List.mem_append] <;> exact Or.inl (Or.inl hk)
  · intro k hk
    refine h k ?_
    cases eo <;> simp only [collectIds, List.mem_append] <;> exact Or.inl (Or.inr hk)
  · intro e hee k hk
    subst hee
    refine h k ?_
    simp only [collectIds, List.mem_append]
    exact Or.inr hk

/-- Resolvedness of a while statement passes to its parts. -/
theorem Resolved_while {m : List (Nat × Nat)} {c b : ASTNode}
    (h : Resolved m (.whileStmt c b)) : Resolved m c ∧ Resolved m b := by
  constructor
  · intro k hk
    refine h k ?_
    simp only [collectIds, List.mem_append]
    exact Or.inl hk
  · intro k hk
    refine h k ?_
    simp only [collectIds, List.mem_append]
    exact Or.inr hk

/-- Resolvedness of a binary expression passes to its operands. -/
theorem Resolved_binary {m : List (Nat × Nat)} {l r : ASTNode} {op : Token}
    (h : Resolved m (.binaryExpr l op r)) : Resolved m l ∧ Resolved m r := by
  constructor
  · intro k hk
    refine h k ?_
    simp only [collectIds, List.mem_append]
    exact Or.inl hk
  · intro k hk
    refine h k ?_
    simp only [collectIds, List.mem_append]
    exact Or.inr hk

/-- Resolvedness of an identifier gives its slot. -/
theorem Resolved_identifier {m : List (Nat × Nat)} {nid : Nat} {name : Token}
    (h : Resolved m (.identifier nid name)) : (lookupSlot m nid).isSome :=
  h nid (by simp [collectIds])

/-- Resolvedness of a cons statement list splits. -/
theorem ResolvedList_cons {m : List (Nat × Nat)} {s : ASTNode} {rest : List ASTNode}
    (h : ResolvedList m (s :: rest)) : Resolved m s ∧ ResolvedList m rest := by
  constructor
  · intro k hk
    refine h k ?_
    simp only [collectIdsList, List.mem_append]
    exact Or.inl hk
  · intro k hk
    refine h k ?_
    simp only [collectIdsList, List.mem_append]
    exact Or.inr hk

/-- A mapped lookup is present exactly when the lookup is. -/
theorem lookupSlot_map_isSome {m : List (Nat × Nat)} {nid : Nat}
    (h : (lookupSlot m nid).isSome) : (Option.map Int.ofNat (lookupSlot m nid)).isSome := by
  cases hm : lookupSlot m nid with
  | none => rw [hm] at h; exact Bool.noConfusion h
  | some s => rfl

/-- An opcode produced by `opcodeOf` is a binary opcode. -/
theorem opcodeOf_binary {t : TokenType} {oc : OpCode} (h : opcodeOf t = some oc) :
    isBinaryOpc oc = true := by
  cases t <;> simp only [opcodeOf] at h <;>
    first
      | exact Option.noConfusion h
      | (injection h with h; rw [← h]; rfl)

mutual

/-- The segment generated for a well-formed, fully resolved statement is a
statement segment at every offset. -/
theorem stmtDelta_typed : ∀ (n : ASTNode) (m : List (Nat × Nat)) (off : Nat),
    IsStmt n → Resolved m n → StmtCode off (nodeDelta m off n)
  | .varDecl nid name, m, off, _, hr => by
    have hsome := lookupSlot_map_isSome (Resolved_varDecl hr)
    exact StmtCode_expr_pop off [⟨.PUSH_INT, some 0, some ("init " ++ name.lexeme)⟩]
      ⟨.STORE, (lookupSlot m nid).map Int.ofNat, none⟩
      (ExprCode_push _ (Or.inl rfl) rfl) (Or.inr ⟨rfl, hsome⟩)
  | .assign nid name e, m, off, hs, hr => by
    obtain ⟨hslot, hre⟩ := Resolved_assign hr
    have he : IsExpr e := by cases hs with | assign _ _ he => exact he
    exact StmtCode_expr_pop off (nodeDelta m off e)
      ⟨.STORE, (lookupSlot m nid).map Int.ofNat, some ("assign " ++ name.lexeme)⟩
      (exprDelta_typed e m off he hre) (Or.inr ⟨rfl, lookupSlot_map_isSome hslot⟩)
  | .printStmt e, m, off, hs, hr => by
    have he : IsExpr e := by cases hs with | printStmt he => exact he
    exact StmtCode_expr_pop off (nodeDelta m off e) ⟨.PRINT, none, none⟩
      (exprDelta_typed e m off he (Resolved_print hr)) (Or.inl rfl)
  | .block stmts, m, off, hs, hr => by
    have hall : ∀ s ∈ stmts, IsStmt s := by cases hs with | block hall => exact hall
    exact stmtsDelta_typed stmts m off hall (Resolved_block hr)
  | .ifStmt c t none, m, off, hs, hr => by
    obtain ⟨hrc, hrt, _⟩ := Resolved_if hr
    have hct : IsExpr c ∧ IsStmt t := by
      cases hs with | ifStmt _ hc ht _ => exact ⟨hc, ht⟩
    exact StmtCode_if_none off (nodeDelta m off c)
      (nodeDelta m (off + ((nodeDelta m off c).length + 1)) t)
      (exprDelta_typed c m off hct.1 hrc)
      (stmtDelta_typed t m (off + ((nodeDelta m off c).length + 1)) hct.2 hrt)
  | .ifStmt c t (some e), m, off, hs, hr => by
    obtain ⟨hrc, hrt, hre⟩ := Resolved_if hr
    have hct : IsExpr c ∧ IsStmt t ∧ IsStmt e := by
      cases hs with | ifStmt _ hc ht he => exact ⟨hc, ht, he e rfl⟩
    exact StmtCode_if_else off (nodeDelta m off c)
      (nodeDelta m (off + ((nodeDelta m off c).length + 1)) t)
      (nodeDelta m (off + ((nodeDelta m off c).length
        + ((nodeDelta m (off + ((nodeDelta m off c).length + 1)) t).length + 1 + 1))) e)
      (exprDelta_typed c m off hct.1 hrc)
      (stmtDelta_typed t m (off + ((nodeDelta m off c).length + 1)) hct.2.1 hrt)
      (stmtDelta_typed e m (off + ((nodeDelta m off c).length
        + ((nodeDelta m (off + ((nodeDelta m off c).length + 1)) t).length + 1 + 1)))
        hct.2.2 (hre e rfl))
  | .whileStmt c b, m, off, hs, hr => by
    obtain ⟨hrc, hrb⟩ := Resolved_while hr
    have hcb : IsExpr c ∧ IsStmt b := by
      cases hs with | whileStmt hc hb => exact ⟨hc, hb⟩
    exact StmtCode_while off (nodeDelta m off c)
      (nodeDelta m (off + ((nodeDelta m off c).length + 1)) b)
      (exprDelta_typed c m off hcb.1 hrc)
      (stmtDelta_typed b m (off + ((nodeDelta m off c).length + 1)) hcb.2 hrb)
  | .program stmts, m, off, hs, hr => by cases hs
  | .binaryExpr l op r, m, off, hs, hr => by cases hs
  | .literal v, m, off, hs, hr => by cases hs
  | .identifier nid name, m, off, hs, hr => by cases hs

/-- The segment generated for a well-formed, fully resolved expression is an
expression segment at every offset. -/
theorem exprDelta_typed : ∀ (n : ASTNode) (m : List (Nat × Nat)) (off : Nat),
    IsExpr n → Resolved m n → ExprCode (nodeDelta m off n)
  | .literal v, m, off, _, _ =>
    ExprCode_push ⟨.PUSH_INT, some v, none⟩ (Or.inl rfl) rfl
  | .identifier nid name, m, off, _, hr =>
    ExprCode_push ⟨.LOAD, (lookupSlot m nid).map Int.ofNat, some ("load " ++ name.lexeme)⟩
      (Or.inr rfl) (lookupSlot_map_isSome (Resolved_identifier hr))
  | .binaryExpr l op r, m, off, hs, hr => by
    obtain ⟨hrl, hrr⟩ := Resolved_binary hr
    have hlr : IsExpr l ∧ IsExpr r ∧ (opcodeOf op.type).isSome := by
      cases hs with | binaryExpr _ hl hr hop => exact ⟨hl, hr, hop⟩
    cases ho : opcodeOf op.type with
    | none =>
      rw [ho] at hlr
      exact absurd hlr.2.2 (by intro hx; exact Bool.noConfusion hx)
    | some oc =>
      show ExprCode (nodeDelta m off l
        ++ nodeDelta m (off + (nodeDelta m off l).length) r
        ++ (match opcodeOf op.type with
            | some oc => [⟨oc, none, none⟩] | none => []))
      rw [ho]
      rw [List.append_assoc]
      exact ExprCode_binary (nodeDelta m off l)
        (nodeDelta m (off + (nodeDelta m off l).length) r) ⟨oc, none, none⟩
        (opcodeOf_binary ho)
        (exprDelta_typed l m off hlr.1 hrl)
        (exprDelta_typed r m (off + (nodeDelta m off l).length) hlr.2.1 hrr)
  | .program stmts, m, off, hs, hr => by cases hs
  | .varDecl nid name, m, off, hs, hr => by cases hs
  | .assign nid name e, m, off, hs, hr => by cases hs
  | .printStmt e, m, off, hs, hr => by cases hs
  | .block stmts, m, off, hs, hr => by cases hs
  | .ifStmt c t eo, m, off, hs, hr => by cases hs
  | .whileStmt c b, m, off, hs, hr => by cases hs

/-- The segment generated for a list of well-formed, fully resolved statements
is a statement segment at every offset. -/
theorem stmtsDelta_typed : ∀ (l : List ASTNode) (m : List (Nat × Nat)) (off : Nat),
    (∀ s ∈ l, IsStmt s) → ResolvedList m l → StmtCode off (stmtsDelta m off l)
  | [], m, off, _, _ => StmtCode_nil off
  | s :: rest, m, off, hall, hr => by
    obtain ⟨hrs, hrrest⟩ := ResolvedList_cons hr
    exact StmtCode_append off (nodeDelta m off s)
      (stmtsDelta m (off + (nodeDelta m off s).length) rest)
      (stmtDelta_typed s m off (hall s (by simp)) hrs)
      (stmtsDelta_typed rest m (off + (nodeDelta m off s).length)
        (fun x hx => hall x (by simp [hx])) hrrest)

end


/-! ### VM safety on well-typed code -/

/-- Global typing of a full bytecode sequence: every instruction is `HALT` or
statement-typed at offset 0 against depth map `d`. -/
def WellTyped (code : List Instruction) (d : Nat → Nat) : Prop :=
  ∀ j inst, code.get? j = some inst →
    inst.op = .HALT ∨ stmtInstrOK 0 code.length d j inst

/-- The bytecode generated for a parsed and analyzed program admits a depth
map starting at 0. -/
theorem generate_wellTyped {m : List (Nat × Nat)} {ast : ASTNode}
    (hw : ∃ l, ast = .program l ∧ ∀ s ∈ l, IsStmt s)
    (hr : Resolved m ast) :
    ∃ d : Nat → Nat, d 0 = 0 ∧ WellTyped (generate m ast) d := by
  obtain ⟨l, rfl, hall⟩ := hw
  obtain ⟨d, hd0, hdE, hOK⟩ := stmtsDelta_typed l m 0 hall (Resolved_program hr)
  have hgen : generate m (.program l) = stmtsDelta m 0 l ++ [⟨.HALT, none, none⟩] := by
    unfold generate getBytecode emit
    rw [genNode_delta]
    simp only [List.nil_append, List.length_nil]
    rfl
  refine ⟨d, hd0, ?_⟩
  rw [hgen]
  intro j inst hj
  have hlen2 : (stmtsDelta m 0 l ++ [(⟨.HALT, none, none⟩ : Instruction)]).length
      = (stmtsDelta m 0 l).length + 1 := by
    simp [List.length_append]
  by_cases hjl : j < (stmtsDelta m 0 l).length
  · rw [List.get?_append hjl] at hj
    right
    exact stmtInstrOK_grow 0 (stmtsDelta m 0 l ++ [(⟨.HALT, none, none⟩ : Instruction)]).length
      (stmtsDelta m 0 l).length d d j inst (fun i _ => rfl)
      (by rw [hlen2]; omega) (by omega) (by omega) (hOK j inst hj)
  · have hjlen : j < (stmtsDelta m 0 l).length + 1 := by
      obtain ⟨hlt, _⟩ := List.get?_eq_some.mp hj
      rw [hlen2] at hlt
      exact hlt
    have hjeq : j = (stmtsDelta m 0 l).length := by omega
    subst hjeq
    have hx := get_append_self (stmtsDelta m 0 l) (⟨.HALT, none, none⟩ : Instruction) []
    rw [hx] at hj
    injection hj with hj
    subst hj
    exact Or.inl rfl

/-- The VM run-loop invariant: the instruction pointer is a valid boundary
index and the operand stack has exactly the depth the map assigns there. -/
def DepthInv (code : List Instruction) (d : Nat → Nat) (st : VMState) : Prop :=
  ∃ i : Nat, st.ip = (i : Int) ∧ i ≤ code.length ∧ st.stack.length = d i

/-- A well-set-up binary dispatch preserves the invariant. -/
theorem binOp_inv (code : List Instruction) (d : Nat → Nat) (i : Nat) (st : VMState)
    (f : Int → Int → Int) (hip : st.ip = (i : Int)) (hlt : i < code.length)
    (hst : st.stack.length = d i) (h1 : 1 ≤ d (i + 1)) (h2 : d i = d (i + 1) + 1) :
    DepthInv code d (binOp st f) := by
  cases hstk : st.stack with
  | nil =>
    rw [hstk] at hst
    simp at hst
    omega
  | cons b rest =>
    cases hrest : rest with
    | nil =>
      rw [hstk, hrest] at hst
      simp at hst
      omega
    | cons a s =>
      have hss : st.stack = b :: a :: s := by rw [hstk, hrest]
      unfold binOp
      rw [hss]
      refine ⟨i + 1, ?_, by omega, ?_⟩
      · dsimp only
        rw [hip]
        omega
      · dsimp only
        rw [hss] at hst
        simp only [List.length_cons] at hst ⊢
        omega

/-- On well-typed code, from a valid state the dispatcher either continues
with the invariant preserved or halts. -/
theorem vmStep_wellTyped (code : List Instruction) (d : Nat → Nat)
    (hwt : WellTyped code d) (st : VMState) (i : Nat)
    (hip : st.ip = (i : Int)) (hlt : i < code.length) (hst : st.stack.length = d i) :
    (∃ st', vmStep code st = .next st' ∧ DepthInv code d st')
    ∨ (∃ st', vmStep code st = .halted st') := by
  have hfetch : fetch code st.ip = code.get? i := by
    rw [hip]
    unfold fetch
    rw [if_neg (by omega)]
    rfl
  cases hg : code.get? i with
  | none =>
    exact absurd (List.get?_eq_none.mp hg) (by omega)
  | some inst =>
    rcases hwt i inst hg with hhalt | hOK
    · right
      obtain ⟨op, oper, com⟩ := inst
      have hop : op = .HALT := hhalt
      subst hop
      refine ⟨st, ?_⟩
      simp only [vmStep]
      rw [hfetch, hg]
    · left
      obtain ⟨op, oper, com⟩ := inst
      cases op
      case HALT =>
        dsimp only [stmtInstrOK] at hOK
      case PUSH_INT =>
        dsimp only [stmtInstrOK] at hOK
        obtain ⟨ho1, ho2⟩ := hOK
        have hstep : vmStep code st
            = .next { st with stack := oper.getD 0 :: st.stack, ip := st.ip + 1 } := by
          simp only [vmStep]
          rw [hfetch, hg]
        refine ⟨_, hstep, ⟨i + 1, ?_, by omega, ?_⟩⟩
        · dsimp only
          rw [hip]
          omega
        · dsimp only
          simp only [List.length_cons, hst]
          omega
      case LOAD =>
        dsimp only [stmtInstrOK] at hOK
        obtain ⟨ho1, ho2⟩ := hOK
        have hstep : vmStep code st
            = .next { st with stack := st.vars (oper.getD 0) :: st.stack, ip := st.ip + 1 } := by
          simp only [vmStep]
          rw [hfetch, hg]
        refine ⟨_, hstep, ⟨i + 1, ?_, by omega, ?_⟩⟩
        · dsimp only
          rw [hip]
          omega
        · dsimp only
          simp only [List.length_cons, hst]
          omega
      case STORE =>
        dsimp only [stmtInstrOK] at hOK
        obtain ⟨ho1, ho2⟩ := hOK
        cases hstk : st.stack with
        | nil =>
          rw [hstk] at hst
          simp at hst
          omega
        | cons v s =>
          have hstep : vmStep code st
              = .next { st with stack := s, vars := updateVar st.vars (oper.getD 0) v, ip := st.ip + 1 } := by
            simp only [vmStep]
            rw [hfetch, hg]
            dsimp only
            rw [hstk]
          refine ⟨_, hstep, ⟨i + 1, ?_, by omega, ?_⟩⟩
          · dsimp only
            rw [hip]
            omega
          · dsimp only
            rw [hstk] at hst
            simp only [List.length_cons] at hst
            omega
      case PRINT =>
        dsimp only [stmtInstrOK] at hOK
        cases hstk : st.stack with
        | nil =>
          rw [hstk] at hst
          simp at hst
          omega
        | cons v s =>
          have hstep : vmStep code st
              = .next { st with stack := s, output := st.output ++ [jsString v], ip := st.ip + 1 } := by
            simp only [vmStep]
            rw [hfetch, hg]
            dsimp only
            rw [hstk]
          refine ⟨_, hstep, ⟨i + 1, ?_, by omega, ?_⟩⟩
          · dsimp only
            rw [hip]
            omega
          · dsimp only
            rw [hstk] at hst
            simp only [List.length_cons] at hst
            omega
      case JMP =>
        dsimp only [stmtInstrOK] at hOK
        obtain ⟨t, ho, h1, h2, h3⟩ := hOK
        rw [Nat.sub_zero] at h3
        have hstep : vmStep code st
            = .next { st with ip := jumpTarget code oper } := by
          simp only [vmStep]
          rw [hfetch, hg]
        refine ⟨_, hstep, ⟨t, ?_, by omega, ?_⟩⟩
        · dsimp only
          rw [ho]
          rfl
        · dsimp only
          rw [hst]
          omega
      case JMP_IF_FALSE =>
        dsimp only [stmtInstrOK] at hOK
        obtain ⟨t, ho, h1, h2, h3, h4⟩ := hOK
        rw [Nat.sub_zero] at h3 h4
        cases hstk : st.stack with
        | nil =>
          rw [hstk] at hst
          simp at hst
          omega
        | cons v s =>
          by_cases hv : v = 0
          · have hstep : vmStep code st
                = .next { st with stack := s, ip := jumpTarget code oper } := by
              simp only [vmStep]
              rw [hfetch, hg]
              dsimp only
              rw [hstk]
              dsimp only
              rw [if_pos hv]
            refine ⟨_, hstep, ⟨t, ?_, by omega, ?_⟩⟩
            · dsimp only
              rw [ho]
              rfl
            · dsimp only
              rw [hstk] at hst
              simp only [List.length_cons] at hst
              omega
          · have hstep : vmStep code st
                = .next { st with stack := s, ip := st.ip + 1 } := by
              simp only [vmStep]
              rw [hfetch, hg]
              dsimp only
              rw [hstk]
              dsimp only
              rw [if_neg hv]
            refine ⟨_, hstep, ⟨i + 1, ?_, by omega, ?_⟩⟩
            · dsimp only
              rw [hip]
              omega
            · dsimp only
              rw [hstk] at hst
              simp only [List.length_cons] at hst
              omega
      case ADD =>
        dsimp only [stmtInstrOK] at hOK
        obtain ⟨h1, h2⟩ := hOK
        have hstep : vmStep code st = .next (binOp st (fun a b => a + b)) := by
          simp only [vmStep]
          rw [hfetch, hg]
        exact ⟨_, hstep, binOp_inv code d i st (fun a b => a + b) hip hlt hst h1 h2⟩
      case SUB =>
        dsimp only [stmtInstrOK] at hOK
        obtain ⟨h1, h2⟩ := hOK
        have hstep : vmStep code st = .next (binOp st (fun a b => a - b)) := by
          simp only [vmStep]
          rw [hfetch, hg]
        exact ⟨_, hstep, binOp_inv code d i st (fun a b => a - b) hip hlt hst h1 h2⟩
      case MUL =>
        dsimp only [stmtInstrOK] at hOK
        obtain ⟨h1, h2⟩ := hOK
        have hstep : vmStep code st = .next (binOp st (fun a b => a * b)) := by
          simp only [vmStep]
          rw [hfetch, hg]
        exact ⟨_, hstep, binOp_inv code d i st (fun a b => a * b) hip hlt hst h1 h2⟩
      case DIV =>
        dsimp only [stmtInstrOK] at hOK
        obtain ⟨h1, h2⟩ := hOK
        have hstep : vmStep code st = .next (binOp st (jsDiv)) := by
          simp only [vmStep]
          rw [hfetch, hg]
        exact ⟨_, hstep, binOp_inv code d i st (jsDiv) hip hlt hst h1 h2⟩
      case MOD =>
        dsimp only [stmtInstrOK] at hOK
        obtain ⟨h1, h2⟩ := hOK
        have hstep : vmStep code st = .next (binOp st (jsMod)) := by
          simp only [vmStep]
          rw [hfetch, hg]
        exact ⟨_, hstep, binOp_inv code d i st (jsMod) hip hlt hst h1 h2⟩
      case CMP_EQ =>
        dsimp only [stmtInstrOK] at hOK
        obtain ⟨h1, h2⟩ := hOK
        have hstep : vmStep code st = .next (binOp st (fun a b => if a = b then 1 else 0)) := by
          simp only [vmStep]
          rw [hfetch, hg]
        exact ⟨_, hstep, binOp_inv code d i st (fun a b => if a = b then 1 else 0) hip hlt hst h1 h2⟩
      case CMP_NE =>
        dsimp only [stmtInstrOK] at hOK
        obtain ⟨h1, h2⟩ := hOK
        have hstep : vmStep code st = .next (binOp st (fun a b => if a = b then 0 else 1)) := by
          simp only [vmStep]
          rw [hfetch, hg]
        exact ⟨_, hstep, binOp_inv code d i st (fun a b => if a = b then 0 else 1) hip hlt hst h1 h2⟩
      case CMP_LT =>
        dsimp only [stmtInstrOK] at hOK
        obtain ⟨h1, h2⟩ := hOK
        have hstep : vmStep code st = .next (binOp st (fun a b => if a < b then 1 else 0)) := by
          simp only [vmStep]
          rw [hfetch, hg]
        exact ⟨_, hstep, binOp_inv code d i st (fun a b => if a < b then 1 else 0) hip hlt hst h1 h2⟩
      case CMP_GT =>
        dsimp only [stmtInstrOK] at hOK
        obtain ⟨h1, h2⟩ := hOK
        have hstep : vmStep code st = .next (binOp st (fun a b => if b < a then 1 else 0)) := by
          simp only [vmStep]
          rw [hfetch, hg]
        exact ⟨_, hstep, binOp_inv code d i st (fun a b => if b < a then 1 else 0) hip hlt hst h1 h2⟩
      case CMP_LE =>
        dsimp only [stmtInstrOK] at hOK
        obtain ⟨h1, h2⟩ := hOK
        have hstep : vmStep code st = .next (binOp st (fun a b => if a ≤ b then 1 else 0)) := by
          simp only [vmStep]
          rw [hfetch, hg]
        exact ⟨_, hstep, binOp_inv code d i st (fun a b => if a ≤ b then 1 else 0) hip hlt hst h1 h2⟩
      case CMP_GE =>
        dsimp only [stmtInstrOK] at hOK
        obtain ⟨h1, h2⟩ := hOK
        have hstep : vmStep code st = .next (binOp st (fun a b => if b ≤ a then 1 else 0)) := by
          simp only [vmStep]
          rw [hfetch, hg]
        exact ⟨_, hstep, binOp_inv code d i st (fun a b => if b ≤ a then 1 else 0) hip hlt hst h1 h2⟩

/-- On well-typed code the run loop, started in a valid state, can only
finish (in a valid state) or halt — it never throws. -/
theorem vmLoop_wellTyped (code : List Instruction) (d : Nat → Nat)
    (hwt : WellTyped code d) :
    ∀ (k : Nat) (st : VMState), DepthInv code d st →
      (∃ st', vmLoop code k st = .finished st' ∧ DepthInv code d st')
      ∨ (∃ st', vmLoop code k st = .halted st') := by
  intro k
  induction k with
  | zero =>
    intro st hinv
    exact Or.inl ⟨st, rfl, hinv⟩
  | succ k ih =>
    intro st hinv
    obtain ⟨i, hip, hile, hst⟩ := hinv
    by_cases hlt : st.ip < (code.length : Int)
    · have hilt : i < code.length := by
        rw [hip] at hlt
        exact_mod_cast hlt
      rcases vmStep_wellTyped code d hwt { st with iterations := st.iterations + 1 } i
        hip hilt hst with ⟨st', hstep, hinv'⟩ | ⟨st', hstep⟩
      · have heq : vmLoop code (k + 1) st = vmLoop code k st' := by
          simp only [vmLoop]
          rw [if_pos hlt, hstep]
        rw [heq]
        exact ih st' hinv'
      · have heq : vmLoop code (k + 1) st = .halted st' := by
          simp only [vmLoop]
          rw [if_pos hlt, hstep]
        rw [heq]
        exact Or.inr ⟨st', rfl⟩
    · have heq : vmLoop code (k + 1) st = .finished st := by
        simp only [vmLoop]
        rw [if_neg hlt]
      rw [heq]
      exact Or.inl ⟨st, rfl, ⟨i, hip, hile, hst⟩⟩

/-- How many operands each opcode pops. -/
def popCount : OpCode → Nat
  | .STORE | .PRINT | .JMP_IF_FALSE => 1
  | .ADD | .SUB | .MUL | .DIV | .MOD | .CMP_EQ | .CMP_NE
  | .CMP_LT | .CMP_GT | .CMP_LE | .CMP_GE => 2
  | _ => 0

/-- Which opcodes dereference their operand (`inst.operand!` or an index). -/
def operandRequired : OpCode → Bool
  | .PUSH_INT | .LOAD | .STORE | .JMP | .JMP_IF_FALSE => true
  | _ => false

/-- The claim-level safety of one dispatch state: the pointer is never
negative, and any instruction it designates has its operand present whenever
the dispatcher dereferences it and at least as many stacked values as it
pops. -/
def StateSafe (code : List Instruction) (st : VMState) : Prop :=
  0 ≤ st.ip ∧ ∀ inst, fetch code st.ip = some inst →
    (operandRequired inst.op = true → inst.operand.isSome)
    ∧ popCount inst.op ≤ st.stack.length

/-- A valid state of well-typed code is safe. -/
theorem StateSafe_of_inv (code : List Instruction) (d : Nat → Nat)
    (hwt : WellTyped code d) (st : VMState) (hinv : DepthInv code d st) :
    StateSafe code st := by
  obtain ⟨i, hip, hile, hst⟩ := hinv
  constructor
  · rw [hip]
    omega
  · intro inst hf
    have hg : code.get? i = some inst := by
      rw [hip] at hf
      unfold fetch at hf
      rw [if_neg (by omega)] at hf
      exact hf
    rcases hwt i inst hg with hhalt | hOK
    · obtain ⟨op, oper, com⟩ := inst
      have hop : op = .HALT := hhalt
      subst hop
      exact ⟨fun hx => Bool.noConfusion hx, Nat.zero_le _⟩
    · obtain ⟨op, oper, com⟩ := inst
      cases op
      case HALT =>
        dsimp only [stmtInstrOK] at hOK
      case PUSH_INT =>
        dsimp only [stmtInstrOK] at hOK
        exact ⟨fun _ => hOK.1, Nat.zero_le _⟩
      case LOAD =>
        dsimp only [stmtInstrOK] at hOK
        exact ⟨fun _ => hOK.1, Nat.zero_le _⟩
      case STORE =>
        dsimp only [stmtInstrOK] at hOK
        obtain ⟨ho1, ho2⟩ := hOK
        exact ⟨fun _ => ho1, by dsimp only [popCount]; omega⟩
      case PRINT =>
        dsimp only [stmtInstrOK] at hOK
        exact ⟨fun hx => Bool.noConfusion hx, by dsimp only [popCount]; omega⟩
      case JMP =>
        dsimp only [stmtInstrOK] at hOK
        obtain ⟨t, ho, _⟩ := hOK
        exact ⟨fun _ => by rw [ho]; rfl, Nat.zero_le _⟩
      case JMP_IF_FALSE =>
        dsimp only [stmtInstrOK] at hOK
        obtain ⟨t, ho, h1, h2, h3, h4⟩ := hOK
        exact ⟨fun _ => by rw [ho]; rfl, by dsimp only [popCount]; omega⟩
      all_goals
        dsimp only [stmtInstrOK] at hOK
        obtain ⟨h1, h2⟩ := hOK
        exact ⟨fun hx => Bool.noConfusion hx, by dsimp only [popCount]; omega⟩


/-- **C7.** For every instruction sequence produced by the code generator from
a source that passed lexing, parsing, and semantic analysis, `run` never
throws: every state the dispatch loop reaches has a non-negative instruction
pointer, and the instruction there (when the pointer is still in range) has
its operand present whenever the dispatcher dereferences it and at least as
many stacked values as it pops — so the pops find values, the jumps and
loads/stores find operands, and the run returns normally (the only possible
failure being the bounded-execution sentinel line inside a normal return). -/
theorem c7_compiled_code_never_throws (source : String) (toks : List Token)
    (ast : ASTNode) (m : List (Nat × Nat))
    (htok : tokenize source = .ok toks) (hparse : parse toks = .ok ast)
    (hana : analyze ast = .ok m) :
    (∀ (k : Nat) (st' : VMState), vmLoop (generate m ast) k freshState = .finished st' →
      StateSafe (generate m ast) st')
    ∧ ∃ out, vmRun (generate m ast) = .ok out := by
  have hw := parse_wf hparse
  have hr := analyze_resolved hana
  obtain ⟨d, hd0, hwt⟩ := generate_wellTyped hw hr
  have hinv0 : DepthInv (generate m ast) d freshState :=
    ⟨0, rfl, Nat.zero_le _, hd0.symm⟩
  constructor
  · intro k st' hfin
    rcases vmLoop_wellTyped (generate m ast) d hwt k freshState hinv0 with
      ⟨st'', heq, hinv''⟩ | ⟨st'', heq⟩
    · rw [hfin] at heq
      injection heq with heq
      subst heq
      exact StateSafe_of_inv (generate m ast) d hwt st' hinv''
    · rw [hfin] at heq
      exact RunOutcome.noConfusion heq
  · dsimp only [vmRun, VMInstance.run, newVM]
    rcases vmLoop_wellTyped (generate m ast) d hwt MAX_ITERATIONS freshState hinv0 with
      ⟨st'', heq, _⟩ | ⟨st'', heq⟩
    · have heq2 : vmLoop (generate m ast) MAX_ITERATIONS
          { stack := [], vars := fun _ => 0, ip := 0, output := [], iterations := 0 }
          = RunOutcome.finished st'' := heq
      rw [heq2]
      exact ⟨_, rfl⟩
    · have heq2 : vmLoop (generate m ast) MAX_ITERATIONS
          { stack := [], vars := fun _ => 0, ip := 0, output := [], iterations := 0 }
          = RunOutcome.halted st'' := heq
      rw [heq2]
      exact ⟨_, rfl⟩

/-- The safety theorem applied to the compiled form of `int x; print(x);`. -/
theorem c7_witness :
    ∃ out, vmRun (generate [(1, 0), (0, 0)]
      (ASTNode.program [.varDecl 0 ⟨.ID, "x", 1, 5⟩,
        .printStmt (.identifier 1 ⟨.ID, "x", 1, 14⟩)])) = .ok out :=
  (c7_compiled_code_never_throws "int x; print(x);"
    [⟨.KW_INT, "int", 1, 1⟩, ⟨.ID, "x", 1, 5⟩, ⟨.SEMI, ";", 1, 6⟩,
     ⟨.KW_PRINT, "print", 1, 8⟩, ⟨.LPAREN, "(", 1, 13⟩, ⟨.ID, "x", 1, 14⟩,
     ⟨.RPAREN, ")", 1, 15⟩, ⟨.SEMI, ";", 1, 16⟩, ⟨.EOF, "", 1, 17⟩]
    (ASTNode.program [.varDecl 0 ⟨.ID, "x", 1, 5⟩,
      .printStmt (.identifier 1 ⟨.ID, "x", 1, 14⟩)])
    [(1, 0), (0, 0)] rfl rfl rfl).2

end MiniC
